import Mathlib

/-!
# Verification of the monthly_file_diff core

Shallow embedding of the template-driven period discovery and
identity-normalization engine of `monthly_file_diff` (src/lib.rs and
src/main.rs), together with proofs about the embedded definitions.

Strings are modelled as `String` (Lean) / `List Char`; Rust's
`str::replace(pattern, replacement)` — replace all non-overlapping
occurrences, scanning left to right — is embedded as `strReplace`.
Filesystem interaction (directory listings, walked files, metadata) is
passed in explicitly as data.
-/

namespace MonthlyFileDiff

/-- Fuel-driven worker for `strReplace`.  With `fuel ≥ s.length` it performs
Rust's `str::replace` semantics: scan left to right; at each position, if the
pattern `p` is a prefix, emit the replacement `t` and skip past the matched
occurrence, otherwise keep the current character.  The `p ≠ []` guard makes the
function total; every pattern used by the program is non-empty. -/
def strReplaceFuel (p t : List Char) : Nat → List Char → List Char
  | _, [] => []
  | 0, s => s
  | fuel + 1, c :: rest =>
    if p ≠ [] ∧ p.isPrefixOf (c :: rest) then
      t ++ strReplaceFuel p t fuel (List.drop (p.length - 1) rest)
    else
      c :: strReplaceFuel p t fuel rest

/-- Embedding of Rust `s.replace(p, t)` for `&str` patterns
(all non-overlapping occurrences, leftmost first). -/
def strReplace (s p t : List Char) : List Char :=
  strReplaceFuel p t s.length s

theorem strReplaceFuel_congr (p t : List Char) :
    ∀ (f₁ : Nat) (s : List Char) (f₂ : Nat), s.length ≤ f₁ → s.length ≤ f₂ →
      strReplaceFuel p t f₁ s = strReplaceFuel p t f₂ s := by
  intro f₁
  induction f₁ with
  | zero =>
    intro s f₂ h₁ _
    have : s = [] := List.eq_nil_of_length_eq_zero (Nat.le_zero.mp h₁)
    subst this
    cases f₂ <;> rfl
  | succ g ih =>
    intro s f₂ h₁ h₂
    cases s with
    | nil => cases f₂ <;> rfl
    | cons c rest =>
      cases f₂ with
      | zero => exact absurd h₂ (by simp)
      | succ g₂ =>
        simp only [strReplaceFuel]
        have hrest : rest.length ≤ g := by
          simpa using Nat.succ_le_succ_iff.mp h₁
        have hrest₂ : rest.length ≤ g₂ := by
          simpa using Nat.succ_le_succ_iff.mp h₂
        by_cases h : p ≠ [] ∧ p.isPrefixOf (c :: rest)
        · rw [if_pos h, if_pos h]
          have hdl : (List.drop (p.length - 1) rest).length ≤ rest.length := by
            simp [List.length_drop]
          exact congrArg (t ++ ·)
            (ih _ _ (le_trans hdl hrest) (le_trans hdl hrest₂))
        · rw [if_neg h, if_neg h]
          exact congrArg (c :: ·) (ih _ _ hrest hrest₂)

theorem strReplace_nil (p t : List Char) : strReplace [] p t = [] := rfl

theorem strReplace_cons_pos {p : List Char} {c : Char} {rest : List Char}
    (t : List Char) (h₁ : p ≠ []) (h₂ : p.isPrefixOf (c :: rest)) :
    strReplace (c :: rest) p t =
      t ++ strReplace (List.drop (p.length - 1) rest) p t := by
  show strReplaceFuel p t (rest.length + 1) (c :: rest) = _
  simp only [strReplaceFuel]
  rw [if_pos ⟨h₁, h₂⟩]
  refine congrArg (t ++ ·) (strReplaceFuel_congr p t _ _ _ ?_ le_rfl)
  simp [List.length_drop]

theorem strReplace_cons_neg {p : List Char} {c : Char} {rest : List Char}
    (t : List Char) (h : ¬(p ≠ [] ∧ p.isPrefixOf (c :: rest))) :
    strReplace (c :: rest) p t = c :: strReplace rest p t := by
  show strReplaceFuel p t (rest.length + 1) (c :: rest) = _
  simp only [strReplaceFuel]
  rw [if_neg h]
  rfl

/-- Consuming a leading occurrence of the pattern. -/
theorem strReplace_append_self {p : List Char} (t X : List Char) (h : p ≠ []) :
    strReplace (p ++ X) p t = t ++ strReplace X p t := by
  cases p with
  | nil => exact absurd rfl h
  | cons a p' =>
    have hpre : (a :: p').isPrefixOf (a :: (p' ++ X)) := by
      rw [List.isPrefixOf_iff_prefix]
      exact ⟨X, rfl⟩
    have hstep := @strReplace_cons_pos (a :: p') a (p' ++ X) t h hpre
    rw [show (a :: p') ++ X = a :: (p' ++ X) from rfl, hstep]
    congr 2
    simp

/-- Scanning through a region in which no match can start: if the pattern's
first character never occurs in `sep`, replacement passes `sep` through. -/
theorem strReplace_pass {p : List Char} (t : List Char) :
    ∀ (sep X : List Char), (∀ ch ∈ sep, p.head? ≠ some ch) →
      strReplace (sep ++ X) p t = sep ++ strReplace X p t := by
  intro sep
  induction sep with
  | nil => intro X _; rfl
  | cons c sep' ih =>
    intro X hsep
    have hnp : ¬(p ≠ [] ∧ p.isPrefixOf (c :: (sep' ++ X))) := by
      rintro ⟨hne, hpre⟩
      cases p with
      | nil => exact hne rfl
      | cons a p' =>
        rw [List.isPrefixOf_iff_prefix] at hpre
        have : a = c := (List.cons_prefix_cons.mp hpre).1
        exact hsep c (by simp) (by simp [this])
    rw [show (c :: sep') ++ X = c :: (sep' ++ X) from rfl,
      strReplace_cons_neg t hnp, ih X fun ch hch => hsep ch (by simp [hch])]
    rfl

/-- If the pattern does not occur, replacement is the identity. -/
theorem strReplace_no_occurrence {p : List Char} (t : List Char) :
    ∀ s : List Char, ¬ p <:+: s → strReplace s p t = s := by
  intro s
  induction s with
  | nil => intro _; rfl
  | cons c rest ih =>
    intro h
    have hnp : ¬(p ≠ [] ∧ p.isPrefixOf (c :: rest)) := by
      rintro ⟨_, hpre⟩
      rw [List.isPrefixOf_iff_prefix] at hpre
      exact h hpre.isInfix
    rw [strReplace_cons_neg t hnp,
      ih fun hi => h (List.infix_cons_iff.mpr (Or.inr hi))]

/-! ## Decimal rendering (Rust `format!("{}", _)` and `format!("{:02}", _)`) -/

/-- Fuel-driven decimal digits of a natural number (most significant first). -/
def natDigitsAux : Nat → Nat → List Char
  | 0, _ => []
  | fuel + 1, n =>
    if n < 10 then [Nat.digitChar n]
    else natDigitsAux fuel (n / 10) ++ [Nat.digitChar (n % 10)]

/-- Decimal string of a `Nat`, as Rust's `Display` renders `u32`. -/
def natStr (n : Nat) : List Char := natDigitsAux (n + 1) n

/-- Decimal string of an `Int`, as Rust's `Display` renders `i32`
(`format!("{}", yyyy)` / `yyyy.to_string()`). -/
def intStr (i : Int) : List Char :=
  if i < 0 then '-' :: natStr i.natAbs else natStr i.natAbs

/-- Rust `format!("{:02}", m)`: zero-pad to width 2. -/
def pad2 (m : Nat) : List Char :=
  if m < 10 then '0' :: natStr m else natStr m

theorem digitChar_isDigit {n : Nat} (h : n < 10) :
    (Nat.digitChar n).isDigit = true := by
  interval_cases n <;> decide

theorem natDigitsAux_isDigit :
    ∀ (fuel n : Nat), ∀ c ∈ natDigitsAux fuel n, c.isDigit = true := by
  intro fuel
  induction fuel with
  | zero => intro n c hc; simp [natDigitsAux] at hc
  | succ g ih =>
    intro n c hc
    by_cases h : n < 10
    · simp only [natDigitsAux, h, if_true, List.mem_singleton] at hc
      exact hc ▸ digitChar_isDigit h
    · simp only [natDigitsAux, h, if_false, List.mem_append,
        List.mem_singleton] at hc
      rcases hc with hc | hc
      · exact ih _ c hc
      · exact hc ▸ digitChar_isDigit (Nat.mod_lt _ (by omega))

theorem natStr_isDigit {n : Nat} : ∀ c ∈ natStr n, c.isDigit = true :=
  natDigitsAux_isDigit _ _

theorem intStr_chars {i : Int} :
    ∀ c ∈ intStr i, c.isDigit = true ∨ c = '-' := by
  intro c hc
  unfold intStr at hc
  by_cases h : i < 0
  · simp only [h, if_true, List.mem_cons] at hc
    rcases hc with hc | hc
    · exact Or.inr hc
    · exact Or.inl (natStr_isDigit c hc)
  · simp only [h, if_false] at hc
    exact Or.inl (natStr_isDigit c hc)

theorem pad2_isDigit {m : Nat} : ∀ c ∈ pad2 m, c.isDigit = true := by
  intro c hc
  unfold pad2 at hc
  by_cases h : m < 10
  · simp only [h, if_true, List.mem_cons] at hc
    rcases hc with hc | hc
    · subst hc; decide
    · exact natStr_isDigit c hc
  · simp only [h, if_false] at hc
    exact natStr_isDigit c hc

theorem natDigitsAux_ne_nil {fuel n : Nat} (h : 0 < fuel) :
    natDigitsAux fuel n ≠ [] := by
  cases fuel with
  | zero => omega
  | succ g =>
    by_cases hn : n < 10 <;> simp [natDigitsAux, hn]

theorem natStr_ne_nil {n : Nat} : natStr n ≠ [] :=
  natDigitsAux_ne_nil (by omega)

theorem intStr_ne_nil {i : Int} : intStr i ≠ [] := by
  unfold intStr
  by_cases h : i < 0 <;> simp [h, natStr_ne_nil]

theorem pad2_ne_nil {m : Nat} : pad2 m ≠ [] := by
  unfold pad2
  by_cases h : m < 10 <;> simp [h, natStr_ne_nil]

/-! ## Decomposition of a string along the occurrences of a pattern

`splitBy p s` returns the fragments of `s` between the leftmost
non-overlapping occurrences of `p`, so that `s` is the fragments joined by
`p` and `strReplace s p t` is the fragments joined by `t`. -/

def splitByFuel (p : List Char) : Nat → List Char → List (List Char)
  | _, [] => [[]]
  | 0, s => [s]
  | fuel + 1, c :: rest =>
    if p ≠ [] ∧ p.isPrefixOf (c :: rest) then
      [] :: splitByFuel p fuel (List.drop (p.length - 1) rest)
    else
      let r := splitByFuel p fuel rest
      (c :: r.headD []) :: r.tail

def splitBy (p s : List Char) : List (List Char) := splitByFuel p s.length s

/-- Join fragments with a separator (`List.intercalate` for `List Char`). -/
def joinW (sep : List Char) : List (List Char) → List Char
  | [] => []
  | [f] => f
  | f :: fs => f ++ sep ++ joinW sep fs

theorem joinW_cons {sep : List Char} {f : List Char} {fs : List (List Char)}
    (h : fs ≠ []) : joinW sep (f :: fs) = f ++ sep ++ joinW sep fs := by
  cases fs with
  | nil => exact absurd rfl h
  | cons g gs => rfl

theorem joinW_cons_head {sep c} {r : List (List Char)} (h : r ≠ []) :
    joinW sep ((c :: r.headD []) :: r.tail) = c :: joinW sep r := by
  cases r with
  | nil => exact absurd rfl h
  | cons f fs =>
    cases fs with
    | nil => rfl
    | cons g gs => rfl

theorem splitByFuel_congr (p : List Char) :
    ∀ (f₁ : Nat) (s : List Char) (f₂ : Nat), s.length ≤ f₁ → s.length ≤ f₂ →
      splitByFuel p f₁ s = splitByFuel p f₂ s := by
  intro f₁
  induction f₁ with
  | zero =>
    intro s f₂ h₁ _
    have : s = [] := List.eq_nil_of_length_eq_zero (Nat.le_zero.mp h₁)
    subst this
    cases f₂ <;> rfl
  | succ g ih =>
    intro s f₂ h₁ h₂
    cases s with
    | nil => cases f₂ <;> rfl
    | cons c rest =>
      cases f₂ with
      | zero => exact absurd h₂ (by simp)
      | succ g₂ =>
        simp only [splitByFuel]
        have hrest : rest.length ≤ g := by
          simpa using Nat.succ_le_succ_iff.mp h₁
        have hrest₂ : rest.length ≤ g₂ := by
          simpa using Nat.succ_le_succ_iff.mp h₂
        by_cases h : p ≠ [] ∧ p.isPrefixOf (c :: rest)
        · rw [if_pos h, if_pos h]
          have hdl : (List.drop (p.length - 1) rest).length ≤ rest.length := by
            simp [List.length_drop]
          rw [ih _ _ (le_trans hdl hrest) (le_trans hdl hrest₂)]
        · rw [if_neg h, if_neg h, ih _ _ hrest hrest₂]

theorem splitBy_nil (p : List Char) : splitBy p [] = [[]] := rfl

theorem splitBy_cons_pos {p : List Char} {c : Char} {rest : List Char}
    (h₁ : p ≠ []) (h₂ : p.isPrefixOf (c :: rest)) :
    splitBy p (c :: rest) = [] :: splitBy p (List.drop (p.length - 1) rest) := by
  show splitByFuel p (rest.length + 1) (c :: rest) = _
  simp only [splitByFuel]
  rw [if_pos ⟨h₁, h₂⟩]
  refine congrArg ([] :: ·) (splitByFuel_congr p _ _ _ ?_ le_rfl)
  simp [List.length_drop]

theorem splitBy_cons_neg {p : List Char} {c : Char} {rest : List Char}
    (h : ¬(p ≠ [] ∧ p.isPrefixOf (c :: rest))) :
    splitBy p (c :: rest) =
      (c :: (splitBy p rest).headD []) :: (splitBy p rest).tail := by
  show splitByFuel p (rest.length + 1) (c :: rest) = _
  simp only [splitByFuel]
  rw [if_neg h]
  rfl

theorem splitBy_ne_nil (p s : List Char) : splitBy p s ≠ [] := by
  cases s with
  | nil => simp [splitBy_nil]
  | cons c rest =>
    show splitByFuel p (rest.length + 1) (c :: rest) ≠ []
    simp only [splitByFuel]
    by_cases h : p ≠ [] ∧ p.isPrefixOf (c :: rest)
    · rw [if_pos h]; simp
    · rw [if_neg h]; simp

theorem joinW_splitBy (p : List Char) (s : List Char) :
    joinW p (splitBy p s) = s := by
  cases s with
  | nil => rfl
  | cons c rest =>
    by_cases h : p ≠ [] ∧ p.isPrefixOf (c :: rest)
    · rw [splitBy_cons_pos h.1 h.2, joinW_cons (splitBy_ne_nil p _),
        joinW_splitBy p (List.drop (p.length - 1) rest)]
      obtain ⟨u, hu⟩ := (List.isPrefixOf_iff_prefix).mp h.2
      cases p with
      | nil => exact absurd rfl h.1
      | cons a p' =>
        rw [List.cons_append] at hu
        injection hu with ha hrest
        subst ha
        subst hrest
        simp
    · rw [splitBy_cons_neg h, joinW_cons_head (splitBy_ne_nil p rest),
        joinW_splitBy p rest]
  termination_by s.length
  decreasing_by
  · simp only [List.length_cons, List.length_drop]
    omega
  · simp

theorem strReplace_eq_joinW (p t : List Char) (s : List Char) :
    strReplace s p t = joinW t (splitBy p s) := by
  cases s with
  | nil => rfl
  | cons c rest =>
    by_cases h : p ≠ [] ∧ p.isPrefixOf (c :: rest)
    · rw [strReplace_cons_pos t h.1 h.2, splitBy_cons_pos h.1 h.2,
        joinW_cons (splitBy_ne_nil p _),
        strReplace_eq_joinW p t (List.drop (p.length - 1) rest)]
      simp
    · rw [strReplace_cons_neg t h, splitBy_cons_neg h,
        joinW_cons_head (splitBy_ne_nil p rest),
        strReplace_eq_joinW p t rest]
  termination_by s.length
  decreasing_by
  · simp only [List.length_cons, List.length_drop]
    omega
  · simp

theorem splitBy_fragments (p s : List Char) :
    (splitBy p s).headD [] <+: s ∧ ∀ f ∈ splitBy p s, f <:+: s := by
  cases s with
  | nil =>
    refine ⟨by simp [splitBy_nil], ?_⟩
    intro f hf
    simp only [splitBy_nil, List.mem_singleton] at hf
    simp [hf]
  | cons c rest =>
    by_cases h : p ≠ [] ∧ p.isPrefixOf (c :: rest)
    · rw [splitBy_cons_pos h.1 h.2]
      have hrec := splitBy_fragments p (List.drop (p.length - 1) rest)
      have hdrop : List.drop (p.length - 1) rest <:+: c :: rest :=
        ((List.drop_suffix _ _).isInfix).trans
          (List.infix_cons_iff.mpr (Or.inr (List.infix_refl _)))
      refine ⟨by simp, ?_⟩
      intro f hf
      rcases List.mem_cons.mp hf with rfl | hf
      · exact List.nil_infix
      · exact (hrec.2 f hf).trans hdrop
    · rw [splitBy_cons_neg h]
      have hrec := splitBy_fragments p rest
      refine ⟨?_, ?_⟩
      · simp only [List.headD_cons]
        exact List.cons_prefix_cons.mpr ⟨rfl, hrec.1⟩
      · intro f hf
        rcases List.mem_cons.mp hf with rfl | hf
        · exact (List.cons_prefix_cons.mpr ⟨rfl, hrec.1⟩).isInfix
        · exact List.infix_cons_iff.mpr
            (Or.inr (hrec.2 f (List.mem_of_mem_tail hf)))
  termination_by s.length
  decreasing_by
  · simp only [List.length_cons, List.length_drop]
    omega
  · simp

/-! ## Occurrence bookkeeping: where matches can and cannot sit -/

theorem prefix_append_split {p A B : List Char} (h : p <+: A ++ B)
    (hnp : ¬ p <+: A) : ∃ u, p = A ++ u ∧ u ≠ [] ∧ u <+: B := by
  have htake := List.prefix_iff_eq_take.mp h
  rw [List.take_append_eq_append_take] at htake
  by_cases hl : p.length ≤ A.length
  · exfalso
    apply hnp
    have hz : p.length - A.length = 0 := by omega
    rw [hz, List.take_zero, List.append_nil] at htake
    exact htake ▸ List.take_prefix _ _
  · refine ⟨B.take (p.length - A.length), ?_, ?_, List.take_prefix _ _⟩
    · rwa [List.take_of_length_le (by omega)] at htake
    · have hlen := h.length_le
      rw [List.length_append] at hlen
      have : (B.take (p.length - A.length)).length = p.length - A.length := by
        rw [List.length_take]
        omega
      intro hnil
      rw [hnil] at this
      simp at this
      omega

theorem head?_of_prefix_cons {u : List Char} {a : Char} {l : List Char}
    (h : u <+: a :: l) (hu : u ≠ []) : u.head? = some a := by
  cases u with
  | nil => exact absurd rfl hu
  | cons b u' =>
    have := (List.cons_prefix_cons.mp h).1
    simp [this]

theorem head_mem_tail_of_eq_append {T f u : List Char} {ch : Char}
    (h : T = f ++ u) (hf : f ≠ []) (hu : u.head? = some ch) : ch ∈ T.tail := by
  cases f with
  | nil => exact absurd rfl hf
  | cons a f' =>
    subst h
    simp only [List.cons_append, List.tail_cons]
    cases u with
    | nil => simp at hu
    | cons b u' =>
      have hb : b = ch := by simpa using hu
      subst hb
      exact List.mem_append.mpr (Or.inr (List.mem_cons_self _ _))

/-- Replacement distributes over a separator region whose characters cannot
begin a match and whose first character does not occur in the pattern. -/
theorem strReplace_cross {p sep : List Char} (t : List Char)
    (hp : p ≠ []) (hsep : sep ≠ [])
    (h1 : ∀ ch ∈ sep, p.head? ≠ some ch)
    (h2 : ∀ ch ∈ p, sep.head? ≠ some ch)
    (f X : List Char) :
    strReplace (f ++ sep ++ X) p t
      = strReplace f p t ++ sep ++ strReplace X p t := by
  by_cases hpf : p <+: f
  · obtain ⟨f₂, hf₂⟩ := hpf
    subst hf₂
    have e1 : (p ++ f₂) ++ sep ++ X = p ++ (f₂ ++ sep ++ X) := by simp
    rw [e1, strReplace_append_self t _ hp, strReplace_append_self t f₂ hp,
      strReplace_cross t hp hsep h1 h2 f₂ X]
    simp
  · cases f with
    | nil =>
      rw [show ([] : List Char) ++ sep ++ X = sep ++ X from by simp,
        strReplace_pass t sep X h1]
      rfl
    | cons c f' =>
      have hnp : ¬(p ≠ [] ∧ p.isPrefixOf (c :: ((f' ++ sep) ++ X))) := by
        rintro ⟨-, hpre⟩
        rw [List.isPrefixOf_iff_prefix] at hpre
        have hpre' : p <+: (c :: f') ++ (sep ++ X) := by simpa using hpre
        obtain ⟨u, hu, hune, huB⟩ := prefix_append_split hpre' hpf
        cases sep with
        | nil => exact hsep rfl
        | cons s0 sep' =>
          have hu0 : u.head? = some s0 :=
            head?_of_prefix_cons (by simpa using huB) hune
          have hs0p : s0 ∈ p := by
            rw [hu]
            refine List.mem_append.mpr (Or.inr ?_)
            cases u with
            | nil => exact absurd rfl hune
            | cons b u' =>
              have : b = s0 := by simpa using hu0
              simp [this]
          exact h2 s0 hs0p (by simp)
      have hnpf' : ¬(p ≠ [] ∧ p.isPrefixOf (c :: f')) := by
        rintro ⟨-, hpre⟩
        exact hpf (List.isPrefixOf_iff_prefix.mp hpre)
      rw [show (c :: f') ++ sep ++ X = c :: ((f' ++ sep) ++ X) from by simp,
        strReplace_cons_neg t hnp,
        show (f' ++ sep) ++ X = f' ++ sep ++ X from rfl,
        strReplace_cross t hp hsep h1 h2 f' X,
        strReplace_cons_neg t hnpf']
      simp
  termination_by f.length
  decreasing_by
  · have hplen : 0 < p.length := List.length_pos.mpr hp
    rw [← hf₂, List.length_append]
    omega
  · simp only [List.length_cons]
    omega

theorem strReplace_joinW_distrib {p sep : List Char} (t : List Char)
    (hp : p ≠ []) (hsep : sep ≠ [])
    (h1 : ∀ ch ∈ sep, p.head? ≠ some ch)
    (h2 : ∀ ch ∈ p, sep.head? ≠ some ch) :
    ∀ frags : List (List Char),
      strReplace (joinW sep frags) p t
        = joinW sep (frags.map fun f => strReplace f p t) := by
  intro frags
  induction frags with
  | nil => rfl
  | cons f fs ih =>
    cases fs with
    | nil => rfl
    | cons g gs =>
      have hne : (g :: gs : List (List Char)) ≠ [] := by simp
      have hne2 : List.map (fun f => strReplace f p t) (g :: gs) ≠ [] := by simp
      rw [joinW_cons hne,
        strReplace_cross t hp hsep h1 h2 f (joinW sep (g :: gs)), ih]
      conv_rhs => rw [List.map_cons, @joinW_cons sep (strReplace f p t)
        (List.map (fun f => strReplace f p t) (g :: gs)) hne2]

/-- Replacing a brace-delimited token inside `fragment ++ token ++ X`:
the token cannot begin inside the fragment, so the first replaced occurrence
is exactly the separating token. -/
theorem strReplace_token_step {tt : List Char} (q X : List Char)
    (hbr : '{' ∉ tt) :
    ∀ f : List Char, ¬ ('{' :: tt) <:+: f →
      strReplace (f ++ ('{' :: tt) ++ X) ('{' :: tt) q
        = f ++ q ++ strReplace X ('{' :: tt) q := by
  intro f
  induction f with
  | nil =>
    intro _
    simp only [List.nil_append]
    rw [strReplace_append_self q X (by simp)]
  | cons c f' ih =>
    intro hf
    have hnp : ¬(('{' :: tt) ≠ [] ∧
        ('{' :: tt).isPrefixOf (c :: ((f' ++ ('{' :: tt)) ++ X))) := by
      rintro ⟨-, hpre⟩
      rw [List.isPrefixOf_iff_prefix] at hpre
      have hpre' : ('{' :: tt) <+: (c :: f') ++ (('{' :: tt) ++ X) := by
        simpa using hpre
      have hnpf : ¬ ('{' :: tt) <+: (c :: f') := fun hp => hf hp.isInfix
      obtain ⟨u, hu, hune, huB⟩ := prefix_append_split hpre' hnpf
      have hu0 : u.head? = some '{' :=
        head?_of_prefix_cons (by simpa using huB) hune
      have hmem : '{' ∈ ('{' :: tt).tail :=
        head_mem_tail_of_eq_append hu (by simp) hu0
      simp only [List.tail_cons] at hmem
      exact hbr hmem
    rw [show (c :: f') ++ ('{' :: tt) ++ X
          = c :: ((f' ++ ('{' :: tt)) ++ X) from by simp,
      strReplace_cons_neg q hnp,
      show (f' ++ ('{' :: tt)) ++ X = f' ++ ('{' :: tt) ++ X from rfl,
      ih (fun hi => hf (List.infix_cons_iff.mpr (Or.inr hi)))]
    simp

/-- Replacing the joining token restores the fragments joined by the
replacement: the only occurrences of a brace token in
`joinW token frags` are the separators, provided no fragment contains it. -/
theorem strReplace_token_inv {tt : List Char} (q : List Char)
    (hbr : '{' ∉ tt) :
    ∀ frags : List (List Char), (∀ f ∈ frags, ¬ ('{' :: tt) <:+: f) →
      strReplace (joinW ('{' :: tt) frags) ('{' :: tt) q = joinW q frags := by
  intro frags
  induction frags with
  | nil => intro _; rfl
  | cons f fs ih =>
    intro hfr
    cases fs with
    | nil => exact strReplace_no_occurrence q f (hfr f (by simp))
    | cons g gs =>
      have hne : (g :: gs : List (List Char)) ≠ [] := by simp
      rw [joinW_cons hne,
        strReplace_token_step q (joinW ('{' :: tt) (g :: gs)) hbr f
          (hfr f (by simp)),
        ih (fun x hx => hfr x (by simp [hx])),
        @joinW_cons q f (g :: gs) hne]

theorem not_infix_scan {T1 : List Char} (h1 : T1.head? = some '{') :
    ∀ (v X : List Char), (∀ ch ∈ v, ch ≠ '{') → ¬ T1 <:+: X →
      ¬ T1 <:+: (v ++ X) := by
  intro v
  induction v with
  | nil => intro X _ hX; simpa using hX
  | cons c v' ih =>
    intro X hv hX hinf
    rw [List.cons_append, List.infix_cons_iff] at hinf
    rcases hinf with hpre | hinf
    · cases T1 with
      | nil => simp at h1
      | cons a T1' =>
        have ha : a = '{' := by simpa using h1
        have hac := (List.cons_prefix_cons.mp hpre).1
        exact hv c (by simp) (by rw [← hac, ha])
    · exact ih X (fun ch hch => hv ch (by simp [hch])) hX hinf

theorem not_infix_tok_append {T1 t2t : List Char} (X : List Char)
    (h1 : T1.head? = some '{') (h2t : ∀ ch ∈ t2t, ch ≠ '{')
    (hTT : ∀ Y, ¬ T1 <+: ('{' :: t2t) ++ Y)
    (hX : ¬ T1 <:+: X) : ¬ T1 <:+: (('{' :: t2t) ++ X) := by
  intro hinf
  rw [List.cons_append, List.infix_cons_iff] at hinf
  rcases hinf with hpre | hinf
  · exact hTT X (by simpa using hpre)
  · exact not_infix_scan h1 t2t X h2t hX hinf

theorem not_infix_seg_append {t1t : List Char} (h1t : '{' ∉ t1t) :
    ∀ (g Y : List Char), Y.head? = some '{' →
      ¬ ('{' :: t1t) <:+: g → ¬ ('{' :: t1t) <:+: Y →
      ¬ ('{' :: t1t) <:+: (g ++ Y) := by
  intro g
  induction g with
  | nil => intro Y _ _ hY; simpa using hY
  | cons c g' ih =>
    intro Y hYh hg hY hinf
    rw [List.cons_append, List.infix_cons_iff] at hinf
    rcases hinf with hpre | hinf
    · by_cases hcg : ('{' :: t1t) <+: (c :: g')
      · exact hg hcg.isInfix
      · have hpre' : ('{' :: t1t) <+: (c :: g') ++ Y := by simpa using hpre
        obtain ⟨u, hu, hune, huB⟩ := prefix_append_split hpre' hcg
        cases Y with
        | nil => simp at hYh
        | cons y0 Y' =>
          have hy0 : y0 = '{' := by simpa using hYh
          have hu0 : u.head? = some '{' := by
            have := head?_of_prefix_cons huB hune
            rw [hy0] at this
            exact this
          have hmem : '{' ∈ ('{' :: t1t).tail :=
            head_mem_tail_of_eq_append hu (by simp) hu0
          simp only [List.tail_cons] at hmem
          exact h1t hmem
    · exact ih Y hYh (fun hi => hg (List.infix_cons_iff.mpr (Or.inr hi))) hY hinf

/-- A brace token distinct from the joining brace token does not occur in the
join, provided it occurs in no fragment. -/
theorem not_infix_joinW {t1t t2t : List Char}
    (h1t : '{' ∉ t1t) (h2t : ∀ ch ∈ t2t, ch ≠ '{')
    (hTT : ∀ Y, ¬ ('{' :: t1t) <+: ('{' :: t2t) ++ Y) :
    ∀ gs : List (List Char), (∀ g ∈ gs, ¬ ('{' :: t1t) <:+: g) →
      ¬ ('{' :: t1t) <:+: joinW ('{' :: t2t) gs := by
  intro gs
  induction gs with
  | nil =>
    intro _ hinf
    have := List.eq_nil_of_infix_nil hinf
    simp at this
  | cons g gs' ih =>
    intro hgs
    cases gs' with
    | nil => exact hgs g (by simp)
    | cons g2 gs'' =>
      rw [joinW_cons (by simp), List.append_assoc]
      have hY : ¬ ('{' :: t1t) <:+:
          (('{' :: t2t) ++ joinW ('{' :: t2t) (g2 :: gs'')) :=
        not_infix_tok_append _ (by simp) h2t hTT
          (ih (fun x hx => hgs x (by simp [hx])))
      exact not_infix_seg_append h1t g _ (by simp) (hgs g (by simp)) hY

/-- If a word avoids the first character of the replacement, then being a
prefix of the replaced string forces it to be a prefix of the original. -/
theorem prefix_back {p t : List Char} (ht : t ≠ []) :
    ∀ (s w : List Char), (∀ ch ∈ w, t.head? ≠ some ch) →
      w <+: strReplace s p t → w <+: s := by
  intro s
  induction s with
  | nil => intro w _ h; exact h
  | cons c rest ih =>
    intro w hwch hw
    by_cases h : p ≠ [] ∧ p.isPrefixOf (c :: rest)
    · rw [strReplace_cons_pos t h.1 h.2] at hw
      cases w with
      | nil => exact List.nil_prefix
      | cons a w' =>
        cases t with
        | nil => exact absurd rfl ht
        | cons t0 t' =>
          have ha : a = t0 := (List.cons_prefix_cons.mp hw).1
          exact absurd (by simp [ha]) (hwch a (by simp))
    · rw [strReplace_cons_neg t h] at hw
      cases w with
      | nil => exact List.nil_prefix
      | cons a w' =>
        obtain ⟨ha, hw'⟩ := List.cons_prefix_cons.mp hw
        exact List.cons_prefix_cons.mpr
          ⟨ha, ih w' (fun ch hch => hwch ch (by simp [hch])) hw'⟩

/-! ## The embedded program (src/lib.rs, src/main.rs)

The placeholder tokens `{yyyy}`, `{mm}`, `{dd}`. -/

def yyyyTok : List Char := ['{', 'y', 'y', 'y', 'y', '}']
def mmTok : List Char := ['{', 'm', 'm', '}']
def ddTok : List Char := ['{', 'd', 'd', '}']

/-- chrono's `NaiveDate`, reduced to its calendar fields.  Values flowing
through the program are built by `from_ymd_opt` (or by chrono's `%Y-%m-%d`
parser) and hence always satisfy the validity check below. -/
structure NaiveDate where
  year : Int
  month : Nat
  day : Nat
deriving DecidableEq, Repr

def isLeapYear (y : Int) : Bool :=
  y % 4 == 0 && (y % 100 != 0 || y % 400 == 0)

def daysInMonth (y : Int) (m : Nat) : Nat :=
  if m = 2 then (if isLeapYear y then 29 else 28)
  else if m = 4 ∨ m = 6 ∨ m = 9 ∨ m = 11 then 30
  else 31

/-- Embeds `NaiveDate::from_ymd_opt`: `some` exactly on valid calendar dates.
(chrono additionally bounds the year to ±262143; every year reaching this
call in the program is parsed from at most four digits, so the bound is
never active and is omitted.) -/
def NaiveDate.from_ymd_opt (y : Int) (m d : Nat) : Option NaiveDate :=
  if 1 ≤ m ∧ m ≤ 12 ∧ 1 ≤ d ∧ d ≤ daysInMonth y m then
    some ⟨y, m, d⟩
  else none

/-- Embeds `resolve_template` (src/lib.rs 25–31): substitute `{yyyy}`, then `{mm}`,
then `{dd}`; `PathBuf::from` is the identity on the resulting string. -/
def resolve_template (path_template : String) (date : NaiveDate) : String :=
  ⟨strReplace (strReplace (strReplace path_template.data yyyyTok
      (intStr date.year)) mmTok (pad2 date.month)) ddTok (pad2 date.day)⟩

/-- Embeds `normalize_filename` (src/lib.rs 33–39): replace every occurrence of the
year string, then every occurrence of the zero-padded month string. -/
def normalize_filename (name : String) (yyyy : Int) (mm : Nat) : String :=
  ⟨strReplace (strReplace name.data (intStr yyyy) yyyyTok) (pad2 mm) mmTok⟩

/-- Split a path string at `'/'` (model of `Path` component access for
relative paths whose components are plain names: no `.`/`..` components, no
redundant separators — Rust's `Path` normalizes those away, which none of the
verified properties exercise). -/
def splitSlash : List Char → List (List Char)
  | [] => [[]]
  | c :: rest =>
    if c = '/' then [] :: splitSlash rest
    else
      let r := splitSlash rest
      (c :: r.headD []) :: r.tail

/-- The `.replace('\\', "/")` applied to the parent in `normalize_rel_path`. -/
def bsFix (s : List Char) : List Char :=
  s.map fun c => if c = '\\' then '/' else c

/-- Embeds `normalize_rel_path` (src/lib.rs 41–55): normalize only the file-name
component; directory components are reproduced (with `'\'` replaced by `'/'`);
a bare file name (empty parent) is returned without a separator. -/
def normalize_rel_path (rel_path : String) (yyyy : Int) (mm : Nat) : String :=
  let segs := splitSlash rel_path.data
  let file : List Char := segs.getLastD []
  let parentSegs := segs.dropLast
  let nf := (normalize_filename ⟨file⟩ yyyy mm).data
  if parentSegs = [] then ⟨nf⟩
  else ⟨bsFix (joinW ['/'] parentSegs) ++ '/' :: nf⟩

/-- Convenience constructor for a relative path `d₁/…/dₙ/file`. -/
def mkRelPath (dirs : List String) (file : String) : String :=
  ⟨joinW ['/'] (dirs.map String.data ++ [file.data])⟩

/-! ### Period discovery (src/lib.rs 119–201)

The regex built in `extract_dates_from_template` is
`regex::escape(folder_tpl)` with the escaped tokens replaced by
`(?P<yyyy>\d{4})`, `(?P<mm>\d{1,2})`, `(?P<dd>\d{1,2})`: a sequence of
literal characters and digit groups.  `PatItem` is that pattern; `parses`
enumerates its matches at a fixed position in backtracking order (greedy for
`\d{1,2}`, matching the regex crate's leftmost-first semantics), and
`findCaptures` implements `Regex::captures`: the match at the leftmost
possible start position — a substring match, not anchored.  (A template using
the same placeholder twice would make the Rust regex builder panic on a
duplicate group name; such templates are outside every property below.) -/

inductive PatItem where
  | lit : Char → PatItem
  | grpY : PatItem
  | grpM : PatItem
  | grpD : PatItem
deriving DecidableEq, Repr

def parsePatFuel : Nat → List Char → List PatItem
  | _, [] => []
  | 0, _ => []
  | fuel + 1, c :: rest =>
    if yyyyTok.isPrefixOf (c :: rest) then
      .grpY :: parsePatFuel fuel (List.drop 5 rest)
    else if mmTok.isPrefixOf (c :: rest) then
      .grpM :: parsePatFuel fuel (List.drop 3 rest)
    else if ddTok.isPrefixOf (c :: rest) then
      .grpD :: parsePatFuel fuel (List.drop 3 rest)
    else
      .lit c :: parsePatFuel fuel rest

/-- The token/literal structure of the escaped-and-substituted regex derived
from a pattern segment. -/
def parsePat (s : List Char) : List PatItem := parsePatFuel s.length s

/-- The named capture groups of a match. -/
structure Caps where
  y : Option (List Char)
  m : Option (List Char)
  d : Option (List Char)
deriving DecidableEq, Repr

def emptyCaps : Caps := ⟨none, none, none⟩

/-- All parses of the pattern at the start of `s`, in backtracking priority
order; each parse yields its captures and the unconsumed remainder. -/
def parses : List PatItem → List Char → List (Caps × List Char)
  | [], s => [(emptyCaps, s)]
  | .lit _ :: _, [] => []
  | .lit c :: ps, x :: xs => if x = c then parses ps xs else []
  | .grpY :: ps, a :: b :: c2 :: d2 :: rest =>
    if a.isDigit ∧ b.isDigit ∧ c2.isDigit ∧ d2.isDigit then
      (parses ps rest).map fun pr => (⟨some [a, b, c2, d2], pr.1.m, pr.1.d⟩, pr.2)
    else []
  | .grpY :: _, _ => []
  | .grpM :: ps, a :: rest =>
    if a.isDigit then
      (match rest with
      | b :: rest' =>
        if b.isDigit then
          (parses ps rest').map fun pr => (⟨pr.1.y, some [a, b], pr.1.d⟩, pr.2)
        else []
      | [] => []) ++
      (parses ps rest).map fun pr => (⟨pr.1.y, some [a], pr.1.d⟩, pr.2)
    else []
  | .grpM :: _, [] => []
  | .grpD :: ps, a :: rest =>
    if a.isDigit then
      (match rest with
      | b :: rest' =>
        if b.isDigit then
          (parses ps rest').map fun pr => (⟨pr.1.y, pr.1.m, some [a, b]⟩, pr.2)
        else []
      | [] => []) ++
      (parses ps rest).map fun pr => (⟨pr.1.y, pr.1.m, some [a]⟩, pr.2)
    else []
  | .grpD :: _, [] => []

/-- Embeds `Regex::captures`: captures of the match at the leftmost position where
one exists (substring semantics — no anchoring). -/
def findCaptures (ps : List PatItem) : List Char → Option Caps
  | [] => ((parses ps []).head?).map Prod.fst
  | c :: rest =>
    match (parses ps (c :: rest)).head? with
    | some pr => some pr.1
    | none => findCaptures ps rest

/-- Whether some parse of the pattern consumes the entire name
(an anchored, full-name match). -/
def fullMatch (ps : List PatItem) (name : List Char) : Bool :=
  (parses ps name).any fun pr => pr.2.isEmpty

/-- Embeds `str::parse` on a captured digit string (1–4 digits: no overflow). -/
def digitsToNat (ds : List Char) : Nat :=
  ds.foldl (fun acc c => acc * 10 + (c.toNat - '0'.toNat)) 0

/-- One directory entry's contribution (src/lib.rs 183–195): take the
leftmost match's `yyyy`/`mm` captures, parse them and build a date with
day 1; the `dd` capture is never read. -/
def entryDate (ps : List PatItem) (name : String) : Option NaiveDate :=
  match findCaptures ps name.data with
  | none => none
  | some caps =>
    match caps.y, caps.m with
    | some ys, some ms =>
      NaiveDate.from_ymd_opt (Int.ofNat (digitsToNat ys)) (digitsToNat ms) 1
    | _, _ => none

def hasPlaceholder (s : List Char) : Bool :=
  decide (yyyyTok <:+: s) || decide (mmTok <:+: s) || decide (ddTok <:+: s)

/-- Pattern-segment selection (src/lib.rs 129–167): deepest path segment
containing a placeholder; otherwise the fallback picks the parent of the
template's last segment (empty when there is none). -/
def patternSegment (template : String) : List Char :=
  let segs := splitSlash template.data
  match segs.reverse.find? (fun s => hasPlaceholder s) with
  | some s => s
  | none => (segs.reverse.drop 1).headD []

/-- Chronological order on dates. -/
def dateLe (a b : NaiveDate) : Prop :=
  a.year < b.year ∨ (a.year = b.year ∧
    (a.month < b.month ∨ (a.month = b.month ∧ a.day ≤ b.day)))

instance : DecidableRel dateLe := fun a b => by
  unfold dateLe
  infer_instance

instance : IsTotal NaiveDate dateLe :=
  ⟨fun a b => by unfold dateLe; omega⟩

instance : IsTrans NaiveDate dateLe :=
  ⟨fun a b c => by unfold dateLe; omega⟩

/-- Embeds `extract_dates_from_template` (src/lib.rs 119–201).  The directory
listing of the scan directory is passed explicitly: `none` models
`fs::read_dir` failing (unreadable or missing directory), `some entries` a
successful read in listing order.  `sort_unstable` is modelled by insertion
sort: dates compare by value, so every sorting algorithm produces the same
list. -/
def extract_dates_from_template (template : String)
    (listing : Option (List String)) : List NaiveDate :=
  let ps := parsePat (patternSegment template)
  let dates : List NaiveDate :=
    match listing with
    | none => []
    | some entries => entries.filterMap fun name => entryDate ps name
  List.insertionSort dateLe dates

/-! ### Collection and grouping (src/main.rs 57–115, 289–313)

A walked file with readable metadata (files whose metadata read fails are
skipped by the loop and never reach the map). -/

structure DirEntry where
  file_name : String
  size : Nat
  created : String
  modified : String
deriving DecidableEq, Repr

/-- The `FileInfo` record of src/main.rs. -/
structure FileInfo where
  actual_name : String
  size : Nat
  created : String
  date_str : String
  modified : String
deriving DecidableEq, Repr

/-- Embeds `format!("%Y")`: zero-pad the year to at least four digits. -/
def pad4 (n : Nat) : List Char :=
  List.replicate (4 - (natStr n).length) '0' ++ natStr n

/-- Embeds `date.format("%Y-%m")`, the `date_str` / period label. -/
def formatYM (d : NaiveDate) : String :=
  ⟨(if d.year < 0 then '-' :: pad4 d.year.natAbs else pad4 d.year.natAbs)
    ++ '-' :: pad2 d.month⟩

def mkFileInfo (e : DirEntry) (date : NaiveDate) : FileInfo :=
  ⟨e.file_name, e.size, e.created, formatYM date, e.modified⟩

/-- Embeds `HashMap::insert`: replace the value of an existing key, else add the
binding.  The map is modelled as an association list; its list order stands
for one admissible iteration order of the hash map (whose order is
unspecified). -/
def insertHM {α : Type} (k : String) (v : α) :
    List (String × α) → List (String × α)
  | [] => [(k, v)]
  | (k', v') :: rest =>
    if k' = k then (k, v) :: rest else (k', v') :: insertHM k v rest

def lookupHM {α : Type} (k : String) : List (String × α) → Option α
  | [] => none
  | (k', v') :: rest => if k' = k then some v' else lookupHM k rest

/-- Embeds `collect_files` (src/main.rs 57–115): walk entries in visit order, key
each by its normalized file name, and insert into the per-period map —
a later file with the same normalized name overwrites an earlier one. -/
def collect_files (entries : List DirEntry) (date : NaiveDate) :
    List (String × FileInfo) :=
  entries.foldl
    (fun m e =>
      insertHM (normalize_filename e.file_name date.year date.month)
        (mkFileInfo e date) m)
    []

/-- Embeds `all.entry(norm_name).or_default().push(info)` (src/main.rs 310–312). -/
def pushEntry (k : String) (v : FileInfo) :
    List (String × List FileInfo) → List (String × List FileInfo)
  | [] => [(k, [v])]
  | (k', vs) :: rest =>
    if k' = k then (k', vs ++ [v]) :: rest
    else (k', vs) :: pushEntry k v rest

/-- The grouping loop of `main` (src/main.rs 301–313): periods are processed
in list order; each period's collected records are folded into the global
map.  Each period's walk results are passed explicitly (a period whose
resolved root does not exist contributes an empty entry list). -/
def groupAll (periods : List (NaiveDate × List DirEntry)) :
    List (String × List FileInfo) :=
  periods.foldl
    (fun all pd =>
      (collect_files pd.2 pd.1).foldl (fun acc kv => pushEntry kv.1 kv.2 acc)
        all)
    []

def lookupList (k : String) (all : List (String × List FileInfo)) :
    List FileInfo :=
  (lookupHM k all).getD []

def labelsOf (periods : List (NaiveDate × List DirEntry)) : List String :=
  periods.map fun pd => formatYM pd.1

/-- The key sequence the exporters iterate (src/main.rs 346, 188): the map is
traversed directly, without sorting; the model's order is the insertion
order, one admissible hash-map iteration order. -/
def exposedKeys (all : List (String × List FileInfo)) : List String :=
  all.map Prod.fst

/-! ## Unfolding lemmas for `parsePat` -/

theorem parsePatFuel_congr :
    ∀ (f₁ : Nat) (s : List Char) (f₂ : Nat), s.length ≤ f₁ → s.length ≤ f₂ →
      parsePatFuel f₁ s = parsePatFuel f₂ s := by
  intro f₁
  induction f₁ with
  | zero =>
    intro s f₂ h₁ _
    have : s = [] := List.eq_nil_of_length_eq_zero (Nat.le_zero.mp h₁)
    subst this
    cases f₂ <;> rfl
  | succ g ih =>
    intro s f₂ h₁ h₂
    cases s with
    | nil => cases f₂ <;> rfl
    | cons c rest =>
      cases f₂ with
      | zero => exact absurd h₂ (by simp)
      | succ g₂ =>
        simp only [parsePatFuel]
        have hrest : rest.length ≤ g := by
          simpa using Nat.succ_le_succ_iff.mp h₁
        have hrest₂ : rest.length ≤ g₂ := by
          simpa using Nat.succ_le_succ_iff.mp h₂
        have hd5 : (List.drop 5 rest).length ≤ rest.length := by
          simp [List.length_drop]
        have hd3 : (List.drop 3 rest).length ≤ rest.length := by
          simp [List.length_drop]
        by_cases hy : yyyyTok.isPrefixOf (c :: rest)
        · rw [if_pos hy, if_pos hy,
            ih _ _ (le_trans hd5 hrest) (le_trans hd5 hrest₂)]
        · rw [if_neg hy, if_neg hy]
          by_cases hm : mmTok.isPrefixOf (c :: rest)
          · rw [if_pos hm, if_pos hm,
              ih _ _ (le_trans hd3 hrest) (le_trans hd3 hrest₂)]
          · rw [if_neg hm, if_neg hm]
            by_cases hd : ddTok.isPrefixOf (c :: rest)
            · rw [if_pos hd, if_pos hd,
                ih _ _ (le_trans hd3 hrest) (le_trans hd3 hrest₂)]
            · rw [if_neg hd, if_neg hd, ih _ _ hrest hrest₂]

theorem parsePat_cons_yyyy {c : Char} {rest : List Char}
    (h : yyyyTok.isPrefixOf (c :: rest)) :
    parsePat (c :: rest) = .grpY :: parsePat (List.drop 5 rest) := by
  show parsePatFuel (rest.length + 1) (c :: rest) = _
  simp only [parsePatFuel]
  rw [if_pos h]
  refine congrArg (PatItem.grpY :: ·) (parsePatFuel_congr _ _ _ ?_ le_rfl)
  simp [List.length_drop]

theorem parsePat_cons_mm {c : Char} {rest : List Char}
    (hy : ¬ yyyyTok.isPrefixOf (c :: rest))
    (h : mmTok.isPrefixOf (c :: rest)) :
    parsePat (c :: rest) = .grpM :: parsePat (List.drop 3 rest) := by
  show parsePatFuel (rest.length + 1) (c :: rest) = _
  simp only [parsePatFuel]
  rw [if_neg (by simpa using hy), if_pos h]
  refine congrArg (PatItem.grpM :: ·) (parsePatFuel_congr _ _ _ ?_ le_rfl)
  simp [List.length_drop]

theorem parsePat_cons_dd {c : Char} {rest : List Char}
    (hy : ¬ yyyyTok.isPrefixOf (c :: rest))
    (hm : ¬ mmTok.isPrefixOf (c :: rest))
    (h : ddTok.isPrefixOf (c :: rest)) :
    parsePat (c :: rest) = .grpD :: parsePat (List.drop 3 rest) := by
  show parsePatFuel (rest.length + 1) (c :: rest) = _
  simp only [parsePatFuel]
  rw [if_neg (by simpa using hy), if_neg (by simpa using hm), if_pos h]
  refine congrArg (PatItem.grpD :: ·) (parsePatFuel_congr _ _ _ ?_ le_rfl)
  simp [List.length_drop]

theorem parsePat_cons_lit {c : Char} {rest : List Char}
    (hy : ¬ yyyyTok.isPrefixOf (c :: rest))
    (hm : ¬ mmTok.isPrefixOf (c :: rest))
    (hd : ¬ ddTok.isPrefixOf (c :: rest)) :
    parsePat (c :: rest) = .lit c :: parsePat rest := by
  show parsePatFuel (rest.length + 1) (c :: rest) = _
  simp only [parsePatFuel]
  rw [if_neg (by simpa using hy), if_neg (by simpa using hm),
    if_neg (by simpa using hd)]
  rfl

/-- Rendering a tokenized template at a date: literal characters unchanged,
each placeholder replaced by its value. -/
def renderPat (d : NaiveDate) : List PatItem → List Char
  | [] => []
  | .lit c :: ps => c :: renderPat d ps
  | .grpY :: ps => intStr d.year ++ renderPat d ps
  | .grpM :: ps => pad2 d.month ++ renderPat d ps
  | .grpD :: ps => pad2 d.day ++ renderPat d ps

/-! ## Character-class helpers -/

theorem intStr_chars_ne {i : Int} {c' : Char} (h1 : c'.isDigit = false)
    (h2 : c' ≠ '-') : ∀ ch ∈ intStr i, ch ≠ c' := by
  intro ch hch heq
  subst heq
  rcases intStr_chars ch hch with hd | hd
  · rw [h1] at hd
    simp at hd
  · exact h2 hd

theorem pad2_chars_ne {m : Nat} {c' : Char} (h1 : c'.isDigit = false) :
    ∀ ch ∈ pad2 m, ch ≠ c' := by
  intro ch hch heq
  subst heq
  have := pad2_isDigit ch hch
  rw [h1] at this
  simp at this

theorem pass_cond_of_ne {p sep : List Char} {p0 : Char}
    (hp : p.head? = some p0) (h : ∀ ch ∈ sep, ch ≠ p0) :
    ∀ ch ∈ sep, p.head? ≠ some ch := by
  intro ch hch heq
  rw [hp] at heq
  refine h ch hch ?_
  injection heq with h'
  exact h'.symm

theorem head?_mem {l : List Char} (h : l ≠ []) :
    ∃ c, l.head? = some c ∧ c ∈ l := by
  cases l with
  | nil => exact absurd rfl h
  | cons a l' => exact ⟨a, rfl, by simp⟩

/-! ## Token-over-token scan lemmas (concrete) -/

theorem strReplace_yyyy_over_mm (t X : List Char) :
    strReplace (mmTok ++ X) yyyyTok t = mmTok ++ strReplace X yyyyTok t := by
  have h1 : ¬(yyyyTok ≠ [] ∧ yyyyTok.isPrefixOf ('{' :: 'm' :: 'm' :: '}' :: X)) := by
    simp [yyyyTok, List.isPrefixOf]
  have h2 : ¬(yyyyTok ≠ [] ∧ yyyyTok.isPrefixOf ('m' :: 'm' :: '}' :: X)) := by
    simp [yyyyTok, List.isPrefixOf]
  have h3 : ¬(yyyyTok ≠ [] ∧ yyyyTok.isPrefixOf ('m' :: '}' :: X)) := by
    simp [yyyyTok, List.isPrefixOf]
  have h4 : ¬(yyyyTok ≠ [] ∧ yyyyTok.isPrefixOf ('}' :: X)) := by
    simp [yyyyTok, List.isPrefixOf]
  show strReplace ('{' :: 'm' :: 'm' :: '}' :: X) yyyyTok t = _
  rw [strReplace_cons_neg t h1, strReplace_cons_neg t h2,
    strReplace_cons_neg t h3, strReplace_cons_neg t h4]
  rfl

theorem strReplace_yyyy_over_dd (t X : List Char) :
    strReplace (ddTok ++ X) yyyyTok t = ddTok ++ strReplace X yyyyTok t := by
  have h1 : ¬(yyyyTok ≠ [] ∧ yyyyTok.isPrefixOf ('{' :: 'd' :: 'd' :: '}' :: X)) := by
    simp [yyyyTok, List.isPrefixOf]
  have h2 : ¬(yyyyTok ≠ [] ∧ yyyyTok.isPrefixOf ('d' :: 'd' :: '}' :: X)) := by
    simp [yyyyTok, List.isPrefixOf]
  have h3 : ¬(yyyyTok ≠ [] ∧ yyyyTok.isPrefixOf ('d' :: '}' :: X)) := by
    simp [yyyyTok, List.isPrefixOf]
  have h4 : ¬(yyyyTok ≠ [] ∧ yyyyTok.isPrefixOf ('}' :: X)) := by
    simp [yyyyTok, List.isPrefixOf]
  show strReplace ('{' :: 'd' :: 'd' :: '}' :: X) yyyyTok t = _
  rw [strReplace_cons_neg t h1, strReplace_cons_neg t h2,
    strReplace_cons_neg t h3, strReplace_cons_neg t h4]
  rfl

theorem strReplace_mm_over_dd (t X : List Char) :
    strReplace (ddTok ++ X) mmTok t = ddTok ++ strReplace X mmTok t := by
  have h1 : ¬(mmTok ≠ [] ∧ mmTok.isPrefixOf ('{' :: 'd' :: 'd' :: '}' :: X)) := by
    simp [mmTok, List.isPrefixOf]
  have h2 : ¬(mmTok ≠ [] ∧ mmTok.isPrefixOf ('d' :: 'd' :: '}' :: X)) := by
    simp [mmTok, List.isPrefixOf]
  have h3 : ¬(mmTok ≠ [] ∧ mmTok.isPrefixOf ('d' :: '}' :: X)) := by
    simp [mmTok, List.isPrefixOf]
  have h4 : ¬(mmTok ≠ [] ∧ mmTok.isPrefixOf ('}' :: X)) := by
    simp [mmTok, List.isPrefixOf]
  show strReplace ('{' :: 'd' :: 'd' :: '}' :: X) mmTok t = _
  rw [strReplace_cons_neg t h1, strReplace_cons_neg t h2,
    strReplace_cons_neg t h3, strReplace_cons_neg t h4]
  rfl

theorem intStr_head_cond {i : Int} {w : List Char}
    (hw : ∀ ch ∈ w, ch.isDigit = false ∧ ch ≠ '-') :
    ∀ ch ∈ w, (intStr i).head? ≠ some ch := by
  intro ch hch heq
  obtain ⟨h0, hh0, hmem⟩ := head?_mem (@intStr_ne_nil i)
  rw [hh0] at heq
  injection heq with h'
  subst h'
  rcases intStr_chars h0 hmem with hd | hd
  · rw [(hw h0 hch).1] at hd
    simp at hd
  · exact (hw h0 hch).2 hd

theorem pad2_head_cond {m : Nat} {w : List Char}
    (hw : ∀ ch ∈ w, ch.isDigit = false) :
    ∀ ch ∈ w, (pad2 m).head? ≠ some ch := by
  intro ch hch heq
  obtain ⟨h0, hh0, hmem⟩ := head?_mem (@pad2_ne_nil m)
  rw [hh0] at heq
  injection heq with h'
  subst h'
  have hdig := pad2_isDigit h0 hmem
  rw [hw h0 hch] at hdig
  simp at hdig

/-- Sequentially substituting `{yyyy}`, `{mm}`, `{dd}` equals a single pass
over the tokenized template: every token occurrence is replaced by its value
and every character outside the tokens is preserved. -/
theorem resolve_eq_renderPat (d : NaiveDate) (s : List Char) :
    strReplace (strReplace (strReplace s yyyyTok (intStr d.year)) mmTok
        (pad2 d.month)) ddTok (pad2 d.day)
      = renderPat d (parsePat s) := by
  cases s with
  | nil => rfl
  | cons c rest =>
    by_cases hY : yyyyTok.isPrefixOf (c :: rest)
    · obtain ⟨u, hu⟩ := List.isPrefixOf_iff_prefix.mp hY
      have hulen : u.length < (c :: rest).length := by
        have hl := congrArg List.length hu
        simp [yyyyTok] at hl
        simp only [List.length_cons]
        omega
      have hp : parsePat (yyyyTok ++ u) = .grpY :: parsePat u := by
        have h : yyyyTok.isPrefixOf ('{' :: ('y' :: 'y' :: 'y' :: 'y' :: '}' :: u)) := by
          simp [yyyyTok, List.isPrefixOf]
        rw [show yyyyTok ++ u = '{' :: ('y' :: 'y' :: 'y' :: 'y' :: '}' :: u) from rfl,
          parsePat_cons_yyyy h]
        rfl
      have hpassMY : ∀ ch ∈ intStr d.year, mmTok.head? ≠ some ch :=
        pass_cond_of_ne rfl (intStr_chars_ne (by decide) (by decide))
      have hpassDY : ∀ ch ∈ intStr d.year, ddTok.head? ≠ some ch :=
        pass_cond_of_ne rfl (intStr_chars_ne (by decide) (by decide))
      rw [← hu, strReplace_append_self (intStr d.year) u (by simp [yyyyTok]),
        strReplace_pass (pad2 d.month) (intStr d.year) _ hpassMY,
        strReplace_pass (pad2 d.day) (intStr d.year) _ hpassDY,
        resolve_eq_renderPat d u, hp]
      rfl
    · by_cases hM : mmTok.isPrefixOf (c :: rest)
      · obtain ⟨u, hu⟩ := List.isPrefixOf_iff_prefix.mp hM
        have hulen : u.length < (c :: rest).length := by
          have hl := congrArg List.length hu
          simp [mmTok] at hl
          simp only [List.length_cons]
          omega
        have hp : parsePat (mmTok ++ u) = .grpM :: parsePat u := by
          have hyn : ¬ yyyyTok.isPrefixOf ('{' :: ('m' :: 'm' :: '}' :: u)) := by
            simp [yyyyTok, List.isPrefixOf]
          have h : mmTok.isPrefixOf ('{' :: ('m' :: 'm' :: '}' :: u)) := by
            simp [mmTok, List.isPrefixOf]
          rw [show mmTok ++ u = '{' :: ('m' :: 'm' :: '}' :: u) from rfl,
            parsePat_cons_mm hyn h]
          rfl
        have hpassDM : ∀ ch ∈ pad2 d.month, ddTok.head? ≠ some ch :=
          pass_cond_of_ne rfl (pad2_chars_ne (by decide))
        rw [← hu, strReplace_yyyy_over_mm (intStr d.year) u,
          strReplace_append_self (pad2 d.month) _ (by simp [mmTok]),
          strReplace_pass (pad2 d.day) (pad2 d.month) _ hpassDM,
          resolve_eq_renderPat d u, hp]
        rfl
      · by_cases hD : ddTok.isPrefixOf (c :: rest)
        · obtain ⟨u, hu⟩ := List.isPrefixOf_iff_prefix.mp hD
          have hulen : u.length < (c :: rest).length := by
            have hl := congrArg List.length hu
            simp [ddTok] at hl
            simp only [List.length_cons]
            omega
          have hp : parsePat (ddTok ++ u) = .grpD :: parsePat u := by
            have hyn : ¬ yyyyTok.isPrefixOf ('{' :: ('d' :: 'd' :: '}' :: u)) := by
              simp [yyyyTok, List.isPrefixOf]
            have hmn : ¬ mmTok.isPrefixOf ('{' :: ('d' :: 'd' :: '}' :: u)) := by
              simp [mmTok, List.isPrefixOf]
            have h : ddTok.isPrefixOf ('{' :: ('d' :: 'd' :: '}' :: u)) := by
              simp [ddTok, List.isPrefixOf]
            rw [show ddTok ++ u = '{' :: ('d' :: 'd' :: '}' :: u) from rfl,
              parsePat_cons_dd hyn hmn h]
            rfl
          rw [← hu, strReplace_yyyy_over_dd (intStr d.year) u,
            strReplace_mm_over_dd (pad2 d.month)
              (strReplace u yyyyTok (intStr d.year)),
            strReplace_append_self (pad2 d.day) _ (by simp [ddTok]),
            resolve_eq_renderPat d u, hp]
          rfl
        · have hn1 : ¬(yyyyTok ≠ [] ∧ yyyyTok.isPrefixOf (c :: rest)) :=
            fun hc => hY hc.2
          have hn2 : ¬(mmTok ≠ [] ∧
              mmTok.isPrefixOf
                (c :: strReplace rest yyyyTok (intStr d.year))) := by
            rintro ⟨-, hpre⟩
            rw [List.isPrefixOf_iff_prefix] at hpre
            obtain ⟨hc, hw⟩ := List.cons_prefix_cons.mp hpre
            have hw' : ['m', 'm', '}'] <+: rest :=
              prefix_back intStr_ne_nil rest _
                (intStr_head_cond (by decide)) hw
            exact hM (List.isPrefixOf_iff_prefix.mpr
              (List.cons_prefix_cons.mpr ⟨hc, hw'⟩))
          have hn3 : ¬(ddTok ≠ [] ∧
              ddTok.isPrefixOf
                (c :: strReplace (strReplace rest yyyyTok (intStr d.year))
                  mmTok (pad2 d.month))) := by
            rintro ⟨-, hpre⟩
            rw [List.isPrefixOf_iff_prefix] at hpre
            obtain ⟨hc, hw⟩ := List.cons_prefix_cons.mp hpre
            have hw1 : ['d', 'd', '}'] <+:
                strReplace rest yyyyTok (intStr d.year) :=
              prefix_back pad2_ne_nil _ _ (pad2_head_cond (by decide)) hw
            have hw2 : ['d', 'd', '}'] <+: rest :=
              prefix_back intStr_ne_nil rest _
                (intStr_head_cond (by decide)) hw1
            exact hD (List.isPrefixOf_iff_prefix.mpr
              (List.cons_prefix_cons.mpr ⟨hc, hw2⟩))
          rw [strReplace_cons_neg (intStr d.year) hn1,
            strReplace_cons_neg (pad2 d.month) hn2,
            strReplace_cons_neg (pad2 d.day) hn3,
            resolve_eq_renderPat d rest, parsePat_cons_lit hY hM hD]
          rfl
  termination_by s.length
  decreasing_by
  all_goals
    first
    | exact hulen
    | (simp only [List.length_cons]; omega)

theorem strReplace_token_inv' {tk : List Char} (q : List Char)
    (h0 : tk.head? = some '{') (hbr : '{' ∉ tk.tail) :
    ∀ frags : List (List Char), (∀ f ∈ frags, ¬ tk <:+: f) →
      strReplace (joinW tk frags) tk q = joinW q frags := by
  cases tk with
  | nil => simp at h0
  | cons a tt =>
    have ha : a = '{' := by simpa using h0
    subst ha
    exact strReplace_token_inv q (by simpa using hbr)

theorem yyyy_not_prefix_mm : ∀ X : List Char, ¬ yyyyTok <+: mmTok ++ X := by
  intro X h
  obtain ⟨-, h2⟩ := List.cons_prefix_cons.mp h
  obtain ⟨he, -⟩ := List.cons_prefix_cons.mp h2
  exact absurd he (by decide)

/-- Core of the round trip: normalizing (year pass, month pass) and then
resolving at the same year and month (and any day) is the identity on
token-free strings. -/
theorem normalize_resolve_roundtrip (y : Int) (m dday : Nat) (s : List Char)
    (hY : ¬ yyyyTok <:+: s) (hM : ¬ mmTok <:+: s) (hD : ¬ ddTok <:+: s) :
    strReplace (strReplace (strReplace
        (strReplace (strReplace s (intStr y) yyyyTok) (pad2 m) mmTok)
        yyyyTok (intStr y)) mmTok (pad2 m)) ddTok (pad2 dday) = s := by
  have hfinf : ∀ f ∈ splitBy (intStr y) s, f <:+: s :=
    (splitBy_fragments (intStr y) s).2
  have hginf : ∀ f ∈ splitBy (intStr y) s, ∀ g ∈ splitBy (pad2 m) f,
      g <:+: s := fun f hf g hg =>
    ((splitBy_fragments (pad2 m) f).2 g hg).trans (hfinf f hf)
  -- Pass 1 (year): decompose along the occurrences of the year string.
  have h1 : strReplace s (intStr y) yyyyTok
      = joinW yyyyTok (splitBy (intStr y) s) :=
    strReplace_eq_joinW (intStr y) yyyyTok s
  -- Pass 2 (month): distributes into the fragments.
  have hyM : ∀ ch ∈ yyyyTok, (pad2 m).head? ≠ some ch :=
    pad2_head_cond (by decide)
  have hMy : ∀ ch ∈ pad2 m, yyyyTok.head? ≠ some ch :=
    pass_cond_of_ne rfl (pad2_chars_ne (by decide))
  have h2 : strReplace (joinW yyyyTok (splitBy (intStr y) s)) (pad2 m) mmTok
      = joinW yyyyTok ((splitBy (intStr y) s).map
          fun f => strReplace f (pad2 m) mmTok) :=
    strReplace_joinW_distrib mmTok pad2_ne_nil (by simp [yyyyTok])
      hyM hMy (splitBy (intStr y) s)
  -- Resolve pass 1 ({yyyy} back to the year): the `{yyyy}` occurrences in the
  -- normalized string are exactly the inserted separators.
  have hfr : ∀ f' ∈ (splitBy (intStr y) s).map
      (fun f => strReplace f (pad2 m) mmTok), ¬ yyyyTok <:+: f' := by
    intro f' hf'
    obtain ⟨f, hf, rfl⟩ := List.mem_map.mp hf'
    rw [strReplace_eq_joinW (pad2 m) mmTok f]
    have hne : ∀ g ∈ splitBy (pad2 m) f, ¬ ('{' :: ['y', 'y', 'y', 'y', '}']) <:+: g :=
      fun g hg hinf => hY (hinf.trans (hginf f hf g hg))
    exact not_infix_joinW (by decide) (by decide) yyyy_not_prefix_mm
      (splitBy (pad2 m) f) hne
  have h3 : strReplace (joinW yyyyTok ((splitBy (intStr y) s).map
        fun f => strReplace f (pad2 m) mmTok)) yyyyTok (intStr y)
      = joinW (intStr y) ((splitBy (intStr y) s).map
          fun f => strReplace f (pad2 m) mmTok) :=
    strReplace_token_inv (intStr y) (by decide) _ hfr
  -- Resolve pass 2 ({mm} back to the month): distribute over the year
  -- separators, then undo the month pass fragmentwise.
  have hYm : ∀ ch ∈ intStr y, mmTok.head? ≠ some ch :=
    pass_cond_of_ne rfl (intStr_chars_ne (by decide) (by decide))
  have hmY : ∀ ch ∈ mmTok, (intStr y).head? ≠ some ch :=
    intStr_head_cond (by decide)
  have h4 : strReplace (joinW (intStr y) ((splitBy (intStr y) s).map
        fun f => strReplace f (pad2 m) mmTok)) mmTok (pad2 m)
      = joinW (intStr y) (((splitBy (intStr y) s).map
          (fun f => strReplace f (pad2 m) mmTok)).map
            fun f => strReplace f mmTok (pad2 m)) :=
    strReplace_joinW_distrib (pad2 m) (by simp [mmTok]) intStr_ne_nil
      hYm hmY _
  have h5 : ((splitBy (intStr y) s).map
        (fun f => strReplace f (pad2 m) mmTok)).map
          (fun f => strReplace f mmTok (pad2 m)) = splitBy (intStr y) s := by
    rw [List.map_map]
    have hid : ∀ f ∈ splitBy (intStr y) s,
        ((fun f => strReplace f mmTok (pad2 m)) ∘
          fun f => strReplace f (pad2 m) mmTok) f = f := by
      intro f hf
      show strReplace (strReplace f (pad2 m) mmTok) mmTok (pad2 m) = f
      rw [strReplace_eq_joinW (pad2 m) mmTok f]
      have hne : ∀ g ∈ splitBy (pad2 m) f, ¬ mmTok <:+: g :=
        fun g hg hinf => hM (hinf.trans (hginf f hf g hg))
      rw [@strReplace_token_inv' mmTok (pad2 m) rfl (by decide) (splitBy (pad2 m) f) hne]
      exact joinW_splitBy (pad2 m) f
    rw [List.map_congr_left hid]
    simp
  rw [h1, h2, h3, h4, h5, joinW_splitBy (intStr y) s,
    strReplace_no_occurrence (pad2 dday) s hD]

/-- C3: `normalize_filename` is exactly the fixed two-pass literal
substitution — the 4-digit year replaced by `{yyyy}` first, then the
zero-padded month by `{mm}` on the post-year string — and on the spec's
example the year pass gives `InTheBox08-{yyyy}.xlsx` and the month pass
`InTheBox{mm}-{yyyy}.xlsx`. -/
theorem C3_normalize_filename_two_pass :
    (∀ (name : String) (yyyy : Int) (mm : Nat),
        normalize_filename name yyyy mm
          = ⟨strReplace (strReplace name.data (intStr yyyy) yyyyTok)
              (pad2 mm) mmTok⟩) ∧
    strReplace ("InTheBox08-2024.xlsx" : String).data (intStr 2024) yyyyTok
      = ("InTheBox08-{yyyy}.xlsx" : String).data ∧
    normalize_filename "InTheBox08-2024.xlsx" 2024 8
      = "InTheBox{mm}-{yyyy}.xlsx" :=
  ⟨fun _ _ _ => rfl, by decide, by decide⟩

/-- C9: an unreadable scan directory (`fs::read_dir` returning `Err`)
yields the empty period list rather than an error. -/
theorem C9_unreadable_dir_yields_empty :
    ∀ template : String, extract_dates_from_template template none = [] :=
  fun _ => rfl

/-- C8: `resolve_template` (total and deterministic as a Lean function)
replaces every occurrence of `{yyyy}` with the year and of `{mm}`/`{dd}` with
the zero-padded month/day, leaving all text outside the tokens unchanged —
it equals the one-pass rendering of the tokenized template — and a template
without any placeholder is returned verbatim. -/
theorem C8_resolve_template_full_substitution :
    (∀ (tpl : String) (d : NaiveDate),
        (resolve_template tpl d).data = renderPat d (parsePat tpl.data)) ∧
    (∀ (tpl : String) (d : NaiveDate),
        hasPlaceholder tpl.data = false → resolve_template tpl d = tpl) := by
  constructor
  · intro tpl d
    exact resolve_eq_renderPat d tpl.data
  · intro tpl d h
    simp only [hasPlaceholder, Bool.or_eq_false_iff,
      decide_eq_false_iff_not] at h
    obtain ⟨⟨hy, hm⟩, hd⟩ := h
    show (⟨strReplace (strReplace (strReplace tpl.data yyyyTok
        (intStr d.year)) mmTok (pad2 d.month)) ddTok (pad2 d.day)⟩ : String)
      = tpl
    rw [strReplace_no_occurrence (intStr d.year) tpl.data hy,
      strReplace_no_occurrence (pad2 d.month) tpl.data hm,
      strReplace_no_occurrence (pad2 d.day) tpl.data hd]

/-- Witness for C8 at a concrete placeholder-free template. -/
theorem C8_witness :
    hasPlaceholder ("Main" : String).data = false ∧
      resolve_template "Main" ⟨2024, 8, 1⟩ = "Main" :=
  ⟨by decide,
    C8_resolve_template_full_substitution.2 "Main" ⟨2024, 8, 1⟩ (by decide)⟩

/-- C5 (amended): for every valid (year, month) pair and every filename
containing none of the placeholder tokens `{yyyy}`, `{mm}`, `{dd}`,
substituting the year and zero-padded month back (via `resolve_template`,
at any day) into `normalize_filename name y m` reconstructs the original
filename exactly. -/
theorem C5_normalize_resolve_roundtrip (name : String) (y : Int)
    (m dday : Nat) (_hm1 : 1 ≤ m) (_hm2 : m ≤ 12)
    (hY : ¬ yyyyTok <:+: name.data) (hM : ¬ mmTok <:+: name.data)
    (hD : ¬ ddTok <:+: name.data) :
    resolve_template (normalize_filename name y m) ⟨y, m, dday⟩ = name := by
  have h := normalize_resolve_roundtrip y m dday name.data hY hM hD
  show (⟨strReplace (strReplace (strReplace
      (strReplace (strReplace name.data (intStr y) yyyyTok) (pad2 m) mmTok)
      yyyyTok (intStr y)) mmTok (pad2 m)) ddTok (pad2 dday)⟩ : String) = name
  rw [h]

/-- The round-trip claim as frozen is false: the filename `"{mm}"` contains
no digit run at all (hence none equal to the year or month), yet
normalization leaves it unchanged and resolution turns it into `"08"`. -/
theorem C5_counterexample :
    (∀ c ∈ ("{mm}" : String).data, c.isDigit = false) ∧
    normalize_filename "{mm}" 2024 8 = "{mm}" ∧
    resolve_template (normalize_filename "{mm}" 2024 8) ⟨2024, 8, 1⟩ = "08" ∧
    ("08" : String) ≠ "{mm}" :=
  ⟨by decide, by decide, by decide, by decide⟩

/-- Witness for C5 on the spec's own example filename. -/
theorem C5_witness :
    (1 ≤ 8 ∧ 8 ≤ 12 ∧
      ¬ yyyyTok <:+: ("InTheBox08-2024.xlsx" : String).data ∧
      ¬ mmTok <:+: ("InTheBox08-2024.xlsx" : String).data ∧
      ¬ ddTok <:+: ("InTheBox08-2024.xlsx" : String).data) ∧
    resolve_template (normalize_filename "InTheBox08-2024.xlsx" 2024 8)
      ⟨2024, 8, 1⟩ = "InTheBox08-2024.xlsx" :=
  ⟨⟨by decide, by decide, by decide, by decide, by decide⟩,
    C5_normalize_resolve_roundtrip "InTheBox08-2024.xlsx" 2024 8 1
      (by decide) (by decide) (by decide) (by decide) (by decide)⟩

/-! ## Path splitting lemmas for `normalize_rel_path` -/

theorem splitSlash_single : ∀ g : List Char, '/' ∉ g → splitSlash g = [g] := by
  intro g
  induction g with
  | nil => intro _; rfl
  | cons c g' ih =>
    intro h
    simp only [List.mem_cons, not_or] at h
    show splitSlash (c :: g') = [c :: g']
    simp only [splitSlash]
    rw [if_neg (fun he => h.1 he.symm), ih h.2]
    rfl

theorem splitSlash_append : ∀ (g X : List Char), '/' ∉ g →
    splitSlash (g ++ '/' :: X) = g :: splitSlash X := by
  intro g
  induction g with
  | nil =>
    intro X _
    show splitSlash ('/' :: X) = [] :: splitSlash X
    simp [splitSlash]
  | cons c g' ih =>
    intro X h
    simp only [List.mem_cons, not_or] at h
    show splitSlash (c :: (g' ++ '/' :: X)) = (c :: g') :: splitSlash X
    simp only [splitSlash]
    rw [if_neg (fun he => h.1 he.symm), ih X h.2]
    rfl

theorem splitSlash_joinW : ∀ segs : List (List Char), segs ≠ [] →
    (∀ g ∈ segs, '/' ∉ g) → splitSlash (joinW ['/'] segs) = segs := by
  intro segs
  induction segs with
  | nil => intro h _; exact absurd rfl h
  | cons g rest ih =>
    intro _ hall
    cases rest with
    | nil => exact splitSlash_single g (hall g (by simp))
    | cons g2 gs =>
      rw [joinW_cons (by simp)]
      have : g ++ ['/'] ++ joinW ['/'] (g2 :: gs)
          = g ++ '/' :: joinW ['/'] (g2 :: gs) := by simp
      rw [this, splitSlash_append g _ (hall g (by simp)),
        ih (by simp) (fun x hx => hall x (by simp [hx]))]

theorem joinW_concat {α : List Char} : ∀ (segs : List (List Char)),
    segs ≠ [] → joinW α (segs ++ [x]) = joinW α segs ++ α ++ x := by
  intro segs
  induction segs with
  | nil => intro h; exact absurd rfl h
  | cons a rest ih =>
    intro _
    cases rest with
    | nil => rfl
    | cons b bs =>
      rw [show (a :: b :: bs) ++ [x] = a :: ((b :: bs) ++ [x]) from rfl,
        @joinW_cons α a ((b :: bs) ++ [x]) (by simp), ih (by simp),
        @joinW_cons α a (b :: bs) (by simp)]
      simp

theorem dropLast_concat' : ∀ (l : List (List Char)) (a : List Char),
    (l ++ [a]).dropLast = l := by
  intro l a
  simp

theorem getLastD_concat' : ∀ (l : List (List Char)) (a : List Char),
    (l ++ [a]).getLastD [] = a := by
  intro l a
  induction l with
  | nil => rfl
  | cons b bs ih =>
    show (b :: (bs ++ [a])).getLastD [] = a
    rw [List.getLastD_cons]
    cases bs with
    | nil => rfl
    | cons c cs => simpa using ih

theorem bsFix_id {l : List Char} (h : '\\' ∉ l) : bsFix l = l := by
  unfold bsFix
  have : ∀ c ∈ l, (if c = '\\' then '/' else c) = c := by
    intro c hc
    rw [if_neg (fun he : c = '\\' => h (he ▸ hc))]
  rw [List.map_congr_left this]
  simp

theorem not_mem_joinW {c : Char} {sep : List Char} (hs : c ∉ sep) :
    ∀ segs : List (List Char), (∀ g ∈ segs, c ∉ g) → c ∉ joinW sep segs := by
  intro segs
  induction segs with
  | nil => intro _; simp [joinW]
  | cons g rest ih =>
    intro hall
    cases rest with
    | nil => exact hall g (by simp)
    | cons g2 gs =>
      rw [joinW_cons (by simp)]
      intro hmem
      rcases List.mem_append.mp hmem with hmem | hmem
      · rcases List.mem_append.mp hmem with hmem | hmem
        · exact hall g (by simp) hmem
        · exact hs hmem
      · exact ih (fun x hx => hall x (by simp [hx])) hmem

/-- Zeta-reduced form of `normalize_rel_path`. -/
theorem normalize_rel_path_eq (rel : String) (y : Int) (m : Nat) :
    normalize_rel_path rel y m =
      if (splitSlash rel.data).dropLast = [] then
        ⟨(normalize_filename ⟨(splitSlash rel.data).getLastD []⟩ y m).data⟩
      else
        ⟨bsFix (joinW ['/'] (splitSlash rel.data).dropLast) ++ '/' ::
          (normalize_filename ⟨(splitSlash rel.data).getLastD []⟩ y m).data⟩ :=
  rfl

/-- C6: for every relative path with at least one directory segment
(segments being plain names: nonempty is not required, but free of
separators, and the directory segments free of `'\'`), `normalize_rel_path`
rewrites only the final component through `normalize_filename`; every
directory segment is reproduced unchanged — even one consisting of the year
or month digits, since no hypothesis restricts the segments' characters
beyond the separators. -/
theorem C6_normalize_rel_path_only_filename (dirs : List String)
    (file : String) (y : Int) (m : Nat) (hnd : dirs ≠ [])
    (hdirs : ∀ d ∈ dirs, '/' ∉ d.data ∧ '\\' ∉ d.data)
    (hfile : '/' ∉ file.data) :
    normalize_rel_path (mkRelPath dirs file) y m
      = mkRelPath dirs (normalize_filename file y m) := by
  have hsegs : splitSlash (mkRelPath dirs file).data
      = dirs.map String.data ++ [file.data] := by
    refine splitSlash_joinW _ (by simp) ?_
    intro g hg
    rcases List.mem_append.mp hg with hg | hg
    · obtain ⟨d, hd, rfl⟩ := List.mem_map.mp hg
      exact (hdirs d hd).1
    · simp only [List.mem_singleton] at hg
      exact hg ▸ hfile
  have hmapne : dirs.map String.data ≠ [] := by
    simpa using hnd
  rw [normalize_rel_path_eq, hsegs, dropLast_concat', getLastD_concat']
  rw [if_neg hmapne]
  have hbs : bsFix (joinW ['/'] (dirs.map String.data))
      = joinW ['/'] (dirs.map String.data) := by
    refine bsFix_id (not_mem_joinW (by decide) _ ?_)
    intro g hg
    obtain ⟨d, hd, rfl⟩ := List.mem_map.mp hg
    exact (hdirs d hd).2
  rw [hbs]
  show (⟨joinW ['/'] (dirs.map String.data) ++ '/' ::
      (normalize_filename file y m).data⟩ : String) = _
  unfold mkRelPath
  rw [joinW_concat _ hmapne]
  simp

/-- Witness for C6 on the spec's scenario 3:
`Sub/Report12-2025.pdf` at (2025, 12). -/
theorem C6_witness :
    ((["Sub"] : List String) ≠ [] ∧
      (∀ d ∈ (["Sub"] : List String), '/' ∉ d.data ∧ '\\' ∉ d.data) ∧
      '/' ∉ ("Report12-2025.pdf" : String).data) ∧
    normalize_rel_path (mkRelPath ["Sub"] "Report12-2025.pdf") 2025 12
      = mkRelPath ["Sub"] (normalize_filename "Report12-2025.pdf" 2025 12) ∧
    mkRelPath ["Sub"] (normalize_filename "Report12-2025.pdf" 2025 12)
      = "Sub/Report{mm}-{yyyy}.pdf" :=
  ⟨⟨by decide, by decide, by decide⟩,
    C6_normalize_rel_path_only_filename ["Sub"] "Report12-2025.pdf" 2025 12
      (by decide) (by decide) (by decide),
    by decide⟩

/-! ## Discovery: validity, sortedness, matching -/

theorem daysInMonth_pos (y : Int) (m : Nat) : 1 ≤ daysInMonth y m := by
  unfold daysInMonth
  split_ifs <;> omega

theorem entryDate_valid {ps : List PatItem} {name : String} {d : NaiveDate}
    (h : entryDate ps name = some d) :
    1 ≤ d.month ∧ d.month ≤ 12 ∧ d.day = 1 := by
  unfold entryDate at h
  split at h
  · exact absurd h (by simp)
  · split at h
    · unfold NaiveDate.from_ymd_opt at h
      split at h
      · rename_i hcond
        injection h with h'
        subst h'
        exact ⟨hcond.1, hcond.2.1, rfl⟩
      · exact absurd h (by simp)
    · exact absurd h (by simp)

theorem mem_extract_dates {template : String} {listing : Option (List String)}
    {d : NaiveDate}
    (h : d ∈ extract_dates_from_template template listing) :
    ∃ name, entryDate (parsePat (patternSegment template)) name = some d := by
  unfold extract_dates_from_template at h
  rw [List.mem_insertionSort] at h
  cases listing with
  | none => simp at h
  | some entries =>
    obtain ⟨name, _, hname⟩ := List.mem_filterMap.mp h
    exact ⟨name, hname⟩

/-- C7: the discovered period list is always sorted chronologically,
every period in it is a valid calendar date (invalid captures are skipped
without error), and the spec's scenario — siblings `ref2024_08data`,
`ref2024_12data`, `ref2025_01data` and the invalid `ref2024_99data` —
produces exactly `[2024-08, 2024-12, 2025-01]` in that order. -/
theorem C7_extract_dates_sorted_and_valid :
    (∀ (template : String) (listing : Option (List String)),
        List.Sorted dateLe (extract_dates_from_template template listing)) ∧
    (∀ (template : String) (listing : Option (List String)) (d : NaiveDate),
        d ∈ extract_dates_from_template template listing →
          1 ≤ d.month ∧ d.month ≤ 12 ∧ 1 ≤ d.day ∧
            d.day ≤ daysInMonth d.year d.month) ∧
    extract_dates_from_template "TestData/ref{yyyy}_{mm}data/Main"
        (some ["ref2024_08data", "ref2024_12data", "ref2025_01data",
          "ref2024_99data"])
      = [⟨2024, 8, 1⟩, ⟨2024, 12, 1⟩, ⟨2025, 1, 1⟩] := by
  refine ⟨?_, ?_, by decide⟩
  · intro template listing
    exact List.sorted_insertionSort dateLe _
  · intro template listing d h
    obtain ⟨name, hname⟩ := mem_extract_dates h
    obtain ⟨h1, h2, h3⟩ := entryDate_valid hname
    refine ⟨h1, h2, ?_, ?_⟩
    · omega
    · rw [h3]
      exact daysInMonth_pos d.year d.month

/-- Witness for C7's membership hypothesis at a concrete discovery. -/
theorem C7_witness :
    (⟨2024, 8, 1⟩ : NaiveDate) ∈ extract_dates_from_template
        "TestData/ref{yyyy}_{mm}data/Main" (some ["ref2024_08data"]) ∧
    (1 ≤ (2024 : Int) ∨
      (1 ≤ (⟨2024, 8, 1⟩ : NaiveDate).month ∧
        (⟨2024, 8, 1⟩ : NaiveDate).month ≤ 12 ∧
        1 ≤ (⟨2024, 8, 1⟩ : NaiveDate).day ∧
        (⟨2024, 8, 1⟩ : NaiveDate).day ≤ daysInMonth 2024 8)) :=
  ⟨by decide,
    Or.inr (C7_extract_dates_sorted_and_valid.2.1
      "TestData/ref{yyyy}_{mm}data/Main" (some ["ref2024_08data"])
      ⟨2024, 8, 1⟩ (by decide))⟩

/-- C2 (amended): the day of every discovered period is 1, regardless of
whether the template contains a `{dd}` placeholder — the `dd` capture group
is created but never read. -/
theorem C2_discovered_day_always_one :
    ∀ (template : String) (listing : Option (List String)) (d : NaiveDate),
      d ∈ extract_dates_from_template template listing → d.day = 1 := by
  intro template listing d h
  obtain ⟨name, hname⟩ := mem_extract_dates h
  exact (entryDate_valid hname).2.2

/-- The claim as frozen is false: with pattern segment
`day{yyyy}-{mm}-{dd}` and entry `day2024-08-15`, the `{dd}` capture is `15`
but the resulting period's day is 1, not 15. -/
theorem C2_counterexample :
    extract_dates_from_template "base/day{yyyy}-{mm}-{dd}/Main"
        (some ["day2024-08-15"]) = [⟨2024, 8, 1⟩] ∧
    (⟨2024, 8, 1⟩ : NaiveDate).day ≠ 15 :=
  ⟨by decide, by decide⟩

/-- Witness for C2's membership hypothesis. -/
theorem C2_witness :
    (⟨2024, 8, 1⟩ : NaiveDate) ∈ extract_dates_from_template
        "base/day{yyyy}-{mm}-{dd}/Main" (some ["day2024-08-15"]) ∧
    (⟨2024, 8, 1⟩ : NaiveDate).day = 1 :=
  ⟨by decide,
    C2_discovered_day_always_one "base/day{yyyy}-{mm}-{dd}/Main"
      (some ["day2024-08-15"]) ⟨2024, 8, 1⟩ (by decide)⟩

theorem findCaptures_isSome_iff (ps : List PatItem) :
    ∀ s : List Char,
      (findCaptures ps s).isSome = true ↔
        ∃ n, parses ps (List.drop n s) ≠ [] := by
  intro s
  induction s with
  | nil =>
    show ((parses ps []).head?.map Prod.fst).isSome = true ↔ _
    cases hp : parses ps [] with
    | nil => simp [hp]
    | cons a l => simp [hp]
  | cons c rest ih =>
    show (match (parses ps (c :: rest)).head? with
        | some pr => some pr.1
        | none => findCaptures ps rest).isSome = true ↔ _
    cases hp : parses ps (c :: rest) with
    | cons a l =>
      simp only [List.head?_cons]
      constructor
      · intro _
        exact ⟨0, by simp [hp]⟩
      · intro _
        rfl
    | nil =>
      simp only [List.head?_nil]
      rw [ih]
      constructor
      · rintro ⟨n, hn⟩
        exact ⟨n + 1, by simpa using hn⟩
      · rintro ⟨n, hn⟩
        cases n with
        | zero => simp [hp] at hn
        | succ n' => exact ⟨n', by simpa using hn⟩

/-- C1 (amended): the matcher derived from the pattern segment uses
substring semantics — a match merely needs to start at some position of the
entry's name, not to cover it in full — so an entry with extra leading and
trailing characters still yields a period: `Xref2024_08dataY` yields
`2024-08` although no parse of the pattern consumes the entire name. -/
theorem C1_substring_match_yields_period :
    (∀ (ps : List PatItem) (s : List Char),
        (findCaptures ps s).isSome = true ↔
          ∃ n, parses ps (List.drop n s) ≠ []) ∧
    extract_dates_from_template "TestData/ref{yyyy}_{mm}data/Main"
        (some ["ref2024_08dataXYZ"]) = [⟨2024, 8, 1⟩] ∧
    fullMatch (parsePat (patternSegment "TestData/ref{yyyy}_{mm}data/Main"))
        ("ref2024_08dataXYZ" : String).data = false :=
  ⟨findCaptures_isSome_iff, by decide, by decide⟩

/-- The claim as frozen is false: the entry `Xref2024_08dataY` does not match
the pattern in full (no parse consumes the whole name), yet discovery yields
the period `2024-08` for it. -/
theorem C1_counterexample :
    extract_dates_from_template "TestData/ref{yyyy}_{mm}data/Main"
        (some ["Xref2024_08dataY"]) = [⟨2024, 8, 1⟩] ∧
    fullMatch (parsePat (patternSegment "TestData/ref{yyyy}_{mm}data/Main"))
        ("Xref2024_08dataY" : String).data = false :=
  ⟨by decide, by decide⟩

/-! ## Grouping: per-period dedup and per-key order -/

/-- Lexicographic order on strings (character-wise). -/
def lexLeB : List Char → List Char → Bool
  | [], _ => true
  | _ :: _, [] => false
  | a :: as, b :: bs =>
    if a < b then true else if a = b then lexLeB as bs else false

def strLe (a b : String) : Prop := lexLeB a.data b.data = true

theorem lookupHM_insertHM_self {α : Type} (k : String) (v : α) :
    ∀ m : List (String × α), lookupHM k (insertHM k v m) = some v := by
  intro m
  induction m with
  | nil => simp [insertHM, lookupHM]
  | cons kv rest ih =>
    obtain ⟨k0, v0⟩ := kv
    by_cases h0 : k0 = k
    · simp [insertHM, lookupHM, h0]
    · simp [insertHM, lookupHM, h0, ih]

theorem lookupHM_insertHM_ne {α : Type} {k k' : String} (v : α)
    (h : k' ≠ k) :
    ∀ m : List (String × α), lookupHM k (insertHM k' v m) = lookupHM k m := by
  intro m
  induction m with
  | nil => simp [insertHM, lookupHM, h]
  | cons kv rest ih =>
    obtain ⟨k0, v0⟩ := kv
    by_cases h0 : k0 = k'
    · subst h0
      simp [insertHM, lookupHM, h]
    · simp only [insertHM, if_neg h0, lookupHM]
      by_cases h0k : k0 = k
      · simp [h0k]
      · simp [h0k, ih]

theorem find?_append' {α : Type} (p : α → Bool) :
    ∀ l₁ l₂ : List α,
      (l₁ ++ l₂).find? p
        = match l₁.find? p with
          | some a => some a
          | none => l₂.find? p := by
  intro l₁
  induction l₁ with
  | nil => intro l₂; rfl
  | cons a l ih =>
    intro l₂
    show List.find? p (a :: (l ++ l₂)) = _
    by_cases hp : p a
    · rw [List.find?_cons_of_pos _ hp, List.find?_cons_of_pos _ hp]
    · rw [List.find?_cons_of_neg _ hp, List.find?_cons_of_neg _ hp, ih]

/-- The value stored for a key after a `collect_files` pass is the one from
the *last* entry in visit order whose normalized name is that key. -/
theorem lookupHM_collect_general (date : NaiveDate) (k : String) :
    ∀ (entries : List DirEntry) (m : List (String × FileInfo)),
      lookupHM k (entries.foldl
        (fun acc e =>
          insertHM (normalize_filename e.file_name date.year date.month)
            (mkFileInfo e date) acc) m)
      = match entries.reverse.find? (fun e =>
            normalize_filename e.file_name date.year date.month == k) with
        | some e => some (mkFileInfo e date)
        | none => lookupHM k m := by
  intro entries
  induction entries with
  | nil => intro m; rfl
  | cons e es ih =>
    intro m
    rw [List.foldl_cons, ih, List.reverse_cons, find?_append']
    cases hfind : es.reverse.find? (fun e =>
        normalize_filename e.file_name date.year date.month == k) with
    | some e' => rfl
    | none =>
      by_cases hk : normalize_filename e.file_name date.year date.month = k
      · rw [List.find?_cons_of_pos _ (by simpa using hk)]
        show lookupHM k (insertHM _ _ m) = _
        rw [hk, lookupHM_insertHM_self]
      · rw [List.find?_cons_of_neg _ (by simpa using hk)]
        show lookupHM k (insertHM _ _ m) = _
        rw [lookupHM_insertHM_ne _ hk]
        rfl

theorem mem_keys_insertHM {α : Type} {k' k : String} {v : α} :
    ∀ m : List (String × α),
      k' ∈ (insertHM k v m).map Prod.fst →
        k' ∈ m.map Prod.fst ∨ k' = k := by
  intro m
  induction m with
  | nil =>
    intro h
    simp [insertHM] at h
    exact Or.inr h
  | cons kv rest ih =>
    obtain ⟨k0, v0⟩ := kv
    intro h
    by_cases h0 : k0 = k
    · rw [insertHM, if_pos h0] at h
      simp only [List.map_cons, List.mem_cons] at h
      rcases h with h | h
      · exact Or.inr h
      · exact Or.inl (by simp [h])
    · rw [insertHM, if_neg h0] at h
      simp only [List.map_cons, List.mem_cons] at h
      rcases h with h | h
      · exact Or.inl (by simp [h])
      · rcases ih h with h' | h'
        · exact Or.inl (by simp [h'])
        · exact Or.inr h'

theorem insertHM_keys_nodup {α : Type} (k : String) (v : α) :
    ∀ m : List (String × α), (m.map Prod.fst).Nodup →
      ((insertHM k v m).map Prod.fst).Nodup := by
  intro m
  induction m with
  | nil => intro _; simp [insertHM]
  | cons kv rest ih =>
    obtain ⟨k0, v0⟩ := kv
    intro hnd
    simp only [List.map_cons, List.nodup_cons] at hnd
    by_cases h0 : k0 = k
    · rw [insertHM, if_pos h0]
      simp only [List.map_cons, List.nodup_cons]
      exact ⟨h0 ▸ hnd.1, hnd.2⟩
    · rw [insertHM, if_neg h0]
      simp only [List.map_cons, List.nodup_cons]
      refine ⟨?_, ih hnd.2⟩
      intro hmem
      rcases mem_keys_insertHM rest hmem with h' | h'
      · exact hnd.1 h'
      · exact h0 h'

theorem collect_files_keys_nodup (entries : List DirEntry)
    (date : NaiveDate) :
    ((collect_files entries date).map Prod.fst).Nodup := by
  suffices h : ∀ m : List (String × FileInfo), (m.map Prod.fst).Nodup →
      ((entries.foldl (fun acc e =>
        insertHM (normalize_filename e.file_name date.year date.month)
          (mkFileInfo e date) acc) m).map Prod.fst).Nodup by
    exact h [] (by simp)
  induction entries with
  | nil => intro m hm; exact hm
  | cons e es ih =>
    intro m hm
    exact ih _ (insertHM_keys_nodup _ _ m hm)

theorem mem_insertHM {α : Type} {kv : String × α} {k : String} {v : α} :
    ∀ m : List (String × α), kv ∈ insertHM k v m → kv ∈ m ∨ kv = (k, v) := by
  intro m
  induction m with
  | nil =>
    intro h
    simp [insertHM] at h
    exact Or.inr h
  | cons kv0 rest ih =>
    obtain ⟨k0, v0⟩ := kv0
    intro h
    by_cases h0 : k0 = k
    · rw [insertHM, if_pos h0] at h
      rcases List.mem_cons.mp h with h | h
      · exact Or.inr h
      · exact Or.inl (List.mem_cons.mpr (Or.inr h))
    · rw [insertHM, if_neg h0] at h
      rcases List.mem_cons.mp h with h | h
      · exact Or.inl (List.mem_cons.mpr (Or.inl h))
      · rcases ih h with h' | h'
        · exact Or.inl (List.mem_cons.mpr (Or.inr h'))
        · exact Or.inr h'

theorem collect_files_date_str {entries : List DirEntry} {date : NaiveDate}
    {kv : String × FileInfo} (h : kv ∈ collect_files entries date) :
    kv.2.date_str = formatYM date := by
  suffices hgen : ∀ m : List (String × FileInfo),
      (∀ kv' ∈ m, kv'.2.date_str = formatYM date) →
      ∀ kv' ∈ entries.foldl (fun acc e =>
        insertHM (normalize_filename e.file_name date.year date.month)
          (mkFileInfo e date) acc) m, kv'.2.date_str = formatYM date by
    exact hgen [] (by simp) kv h
  clear h
  induction entries with
  | nil => intro m hm; exact hm
  | cons e es ih =>
    intro m hm
    rw [List.foldl_cons]
    apply ih
    intro kv' hkv'
    rcases mem_insertHM m hkv' with h' | h'
    · exact hm kv' h'
    · rw [h']
      rfl

instance : DecidableRel strLe := fun a b => by
  unfold strLe
  infer_instance

theorem lookupList_pushEntry (k k' : String) (v : FileInfo) :
    ∀ all : List (String × List FileInfo),
      lookupList k (pushEntry k' v all)
        = if k' = k then lookupList k all ++ [v] else lookupList k all := by
  intro all
  induction all with
  | nil =>
    by_cases h : k' = k
    · subst h
      simp [pushEntry, lookupList, lookupHM]
    · simp [pushEntry, lookupList, lookupHM, h]
  | cons kv rest ih =>
    obtain ⟨k0, vs⟩ := kv
    by_cases h0 : k0 = k'
    · subst h0
      rw [pushEntry, if_pos rfl]
      by_cases hk : k0 = k
      · subst hk
        simp [lookupList, lookupHM]
      · simp [lookupList, lookupHM, hk]
    · rw [pushEntry, if_neg h0]
      by_cases h0k : k0 = k
      · subst h0k
        have hne : k' ≠ k0 := fun he => h0 he.symm
        simp [lookupList, lookupHM, hne]
      · have ih' := ih
        simp only [lookupList] at ih'
        simp [lookupList, lookupHM, h0k, ih']

theorem lookupList_foldl_push (L : String) :
    ∀ (kvs : List (String × FileInfo)) (all : List (String × List FileInfo))
      (k : String),
      (kvs.map Prod.fst).Nodup →
      (∀ kv ∈ kvs, kv.2.date_str = L) →
      ((lookupList k (kvs.foldl
          (fun acc kv => pushEntry kv.1 kv.2 acc) all)).map
            fun i => i.date_str)
        = ((lookupList k all).map fun i => i.date_str)
            ++ (if k ∈ kvs.map Prod.fst then [L] else []) := by
  intro kvs
  induction kvs with
  | nil =>
    intro all k _ _
    simp
  | cons kv0 kvs' ih =>
    obtain ⟨k0, v0⟩ := kv0
    intro all k hnd hval
    simp only [List.map_cons, List.nodup_cons] at hnd
    rw [List.foldl_cons,
      ih (pushEntry k0 v0 all) k hnd.2 (fun kv h => hval kv (by simp [h])),
      lookupList_pushEntry k k0 v0 all]
    by_cases hk : k0 = k
    · subst hk
      rw [if_pos rfl, if_neg hnd.1]
      have hv0 : v0.date_str = L := hval (k0, v0) (by simp)
      simp [hv0]
    · rw [if_neg hk]
      have hiff : (k ∈ ((k0, v0) :: kvs').map Prod.fst)
          ↔ k ∈ kvs'.map Prod.fst := by
        simp only [List.map_cons, List.mem_cons]
        constructor
        · rintro (h | h)
          · exact absurd h.symm hk
          · exact h
        · exact Or.inr
      by_cases hmem : k ∈ kvs'.map Prod.fst
      · rw [if_pos hmem, if_pos (hiff.mpr hmem)]
      · rw [if_neg hmem, if_neg (fun h => hmem (hiff.mp h))]

/-- Across `main`'s grouping fold, the labels of the records accumulated for
any key form a sublist of the processed periods' labels: each period
contributes at most one record per key, in processing order. -/
theorem groupAll_sublist_labels :
    ∀ (periods : List (NaiveDate × List DirEntry))
      (all : List (String × List FileInfo)) (k : String),
      ((lookupList k (periods.foldl
          (fun all pd => (collect_files pd.2 pd.1).foldl
            (fun acc kv => pushEntry kv.1 kv.2 acc) all) all)).map
        fun i => i.date_str).Sublist
        (((lookupList k all).map fun i => i.date_str) ++ labelsOf periods) := by
  intro periods
  induction periods with
  | nil =>
    intro all k
    simp [labelsOf]
  | cons pd rest ih =>
    obtain ⟨d0, es⟩ := pd
    intro all k
    rw [List.foldl_cons]
    refine (ih _ k).trans ?_
    rw [lookupList_foldl_push (formatYM d0) (collect_files es d0) all k
      (collect_files_keys_nodup es d0) (fun kv h => collect_files_date_str h)]
    have hlab : labelsOf ((d0, es) :: rest) = formatYM d0 :: labelsOf rest :=
      rfl
    rw [hlab]
    by_cases hmem : k ∈ (collect_files es d0).map Prod.fst
    · rw [if_pos hmem, List.append_assoc]
      exact List.Sublist.refl _
    · rw [if_neg hmem, List.append_nil]
      exact List.Sublist.append_left (List.sublist_cons_self _ _) _

/-- C4 (amended): within each key, the grouped records carry period
labels in processing order — a sublist of the processed periods' labels — so
whenever the processed periods' labels are ascending (as they are for
discovered periods), each key's record list is ordered by `periodLabel`
ascending. -/
theorem C4_within_key_period_order :
    ∀ (periods : List (NaiveDate × List DirEntry)) (k : String),
      List.Pairwise strLe (labelsOf periods) →
      List.Sorted strLe
        ((lookupList k (groupAll periods)).map fun i => i.date_str) := by
  intro periods k hp
  have hsub := groupAll_sublist_labels periods [] k
  simp only [lookupList, lookupHM, Option.getD, List.map_nil,
    List.nil_append] at hsub
  exact List.Pairwise.sublist hsub hp

/-- The claim as frozen is false: the exporters iterate the grouped map
directly (no key sort); in the embedding's realized iteration order the keys
come out in insertion order, which is not lexicographically sorted. -/
theorem C4_counterexample :
    exposedKeys (groupAll [(⟨2024, 8, 1⟩,
        [⟨"b.txt", 1, "", ""⟩, ⟨"a.txt", 2, "", ""⟩])])
      = ["b.txt", "a.txt"] ∧
    ¬ List.Sorted strLe ["b.txt", "a.txt"] :=
  ⟨by decide, by decide⟩

/-- Witness for C4's sorted-labels hypothesis at a concrete two-period run. -/
theorem C4_witness :
    List.Pairwise strLe (labelsOf [(⟨2024, 8, 1⟩, [⟨"x.txt", 1, "", ""⟩]),
        (⟨2024, 12, 1⟩, [⟨"x.txt", 2, "", ""⟩])]) ∧
    List.Sorted strLe
      ((lookupList "x.txt" (groupAll [(⟨2024, 8, 1⟩, [⟨"x.txt", 1, "", ""⟩]),
          (⟨2024, 12, 1⟩, [⟨"x.txt", 2, "", ""⟩])])).map
        fun i => i.date_str) :=
  ⟨by decide,
    C4_within_key_period_order [(⟨2024, 8, 1⟩, [⟨"x.txt", 1, "", ""⟩]),
      (⟨2024, 12, 1⟩, [⟨"x.txt", 2, "", ""⟩])] "x.txt" (by decide)⟩

/-- C10: each period's collection map holds at most one record per
normalized identity (its keys are distinct); the record stored under a key is
the one from the last file in walk order whose normalized name is that key
(later files overwrite earlier ones); consequently, for distinct period
labels, each key's grouped list holds at most one record per period. -/
theorem C10_per_period_dedup :
    (∀ (entries : List DirEntry) (date : NaiveDate),
        ((collect_files entries date).map Prod.fst).Nodup) ∧
    (∀ (entries : List DirEntry) (date : NaiveDate) (k : String),
        lookupHM k (collect_files entries date)
          = (entries.reverse.find? (fun e =>
                normalize_filename e.file_name date.year date.month == k)).map
              fun e => mkFileInfo e date) ∧
    (∀ (periods : List (NaiveDate × List DirEntry)) (k : String),
        (labelsOf periods).Nodup →
          ((lookupList k (groupAll periods)).map fun i => i.date_str).Nodup) := by
  refine ⟨collect_files_keys_nodup, ?_, ?_⟩
  · intro entries date k
    unfold collect_files
    rw [lookupHM_collect_general]
    cases hf : entries.reverse.find? (fun e =>
        normalize_filename e.file_name date.year date.month == k) with
    | some e => rfl
    | none => rfl
  · intro periods k hnd
    have hsub := groupAll_sublist_labels periods [] k
    simp only [lookupList, lookupHM, Option.getD, List.map_nil,
      List.nil_append] at hsub
    exact List.Nodup.sublist hsub hnd

/-- Witness for C10's distinct-labels hypothesis: two periods, one logical
file appearing in both under date-bearing names. -/
theorem C10_witness :
    (labelsOf [(⟨2024, 8, 1⟩, [⟨"InTheBox08-2024.xlsx", 10, "", ""⟩]),
        (⟨2024, 12, 1⟩, [⟨"InTheBox12-2024.xlsx", 20, "", ""⟩])]).Nodup ∧
    ((lookupList "InTheBox{mm}-{yyyy}.xlsx"
        (groupAll [(⟨2024, 8, 1⟩, [⟨"InTheBox08-2024.xlsx", 10, "", ""⟩]),
          (⟨2024, 12, 1⟩, [⟨"InTheBox12-2024.xlsx", 20, "", ""⟩])])).map
      fun i => i.date_str).Nodup :=
  ⟨by decide,
    C10_per_period_dedup.2.2
      [(⟨2024, 8, 1⟩, [⟨"InTheBox08-2024.xlsx", 10, "", ""⟩]),
        (⟨2024, 12, 1⟩, [⟨"InTheBox12-2024.xlsx", 20, "", ""⟩])]
      "InTheBox{mm}-{yyyy}.xlsx" (by decide)⟩

end MonthlyFileDiff
